import Mathlib

namespace Loan

/-! Shallow embedding of the mortgage-statement extraction service
    found in apps/extraction-api/app/main.py.

    Regex patterns from the source are embedded as abstract syntax trees
    over character classes and evaluated by a backtracking matcher that
    follows the semantics of the Python re module as used by the source:
    the leftmost search position wins, alternatives are tried left to
    right, greedy quantifiers try the longest repetition first, lazy
    quantifiers the shortest, and the end anchor accepts either the end
    of the string or a position just before a single final newline.
    Character classes, case folding and the digit test are modelled on
    their ASCII fragment. -/

/-- ASCII fragment of the Python whitespace class used by regex patterns
    and by the strip method. -/
def wsChar (c : Char) : Bool :=
  c == ' ' || c == '\t' || c == '\n' || c == '\r' || c == '\x0b' || c == '\x0c'

/-- ASCII fragment of the Python word-character class. -/
def wordChar (c : Char) : Bool := c.isAlphanum || c == '_'

/-- Capture slots for group 1 and group 2; no source pattern has more
    than two capturing groups. -/
abbrev Caps := Option (List Char) × Option (List Char)

/-- Regex abstract syntax.  All quantifiers in the source apply to
    single-character classes, so quantified forms are restricted to
    classes, which keeps the matcher total and the backtracking order
    exact. -/
inductive RE where
  | eps
  | cls (p : Char → Bool)
  | seq (a b : RE)
  | alt (a b : RE)
  | starCls (p : Char → Bool) (lazy : Bool)
  | repCls (p : Char → Bool) (lo hi : Nat)
  | grp (i : Nat) (a : RE)
  | dollar

/-- Length of the maximal prefix of l whose characters satisfy p. -/
def clsRun (p : Char → Bool) (l : List Char) : Nat := (l.takeWhile p).length

/-- Store a captured slice in the capture slot of group i. -/
def setCap (i : Nat) (v : List Char) : Caps → Caps
  | (a, b) => if i = 1 then (some v, b) else if i = 2 then (a, some v) else (a, b)

/-- Repetition counts tried by a greedy bounded quantifier, longest
    first, given the length of the available run of class characters. -/
def repCands (lo hi run : Nat) : List Nat :=
  if min hi run < lo then [] else (List.range' lo (min hi run - lo + 1)).reverse

/-- All ways a regex can match a prefix of the input, as pairs of the
    remaining suffix and the capture state, in the priority order of the
    Python backtracking engine.  The head of the list is the match the
    engine commits to. -/
def mres : RE → List Char → Caps → List (List Char × Caps)
  | .eps, s, cp => [(s, cp)]
  | .cls _, [], _ => []
  | .cls p, c :: cs, cp => if p c then [(cs, cp)] else []
  | .seq a b, s, cp => (mres a s cp).flatMap (fun r => mres b r.1 r.2)
  | .alt a b, s, cp => mres a s cp ++ mres b s cp
  | .starCls p lz, s, cp =>
      let run := clsRun p s
      let idxs := if lz then List.range (run + 1) else (List.range (run + 1)).reverse
      idxs.map (fun i => (s.drop i, cp))
  | .repCls p lo hi, s, cp => (repCands lo hi (clsRun p s)).map (fun i => (s.drop i, cp))
  | .grp i a, s, cp =>
      (mres a s cp).map (fun r => (r.1, setCap i (s.take (s.length - r.1.length)) r.2))
  | .dollar, s, cp => if s.isEmpty || s == ['\n'] then [(s, cp)] else []

/-- Python re.match: anchored at the start of the string, returning the
    committed capture state on success. -/
def reMatch (r : RE) (l : List Char) : Option Caps := ((mres r l (none, none)).head?).map (·.2)

/-- Search loop of Python re.search: try each start position from pos on
    and commit to the first position that matches, returning start
    position, end position and captures. -/
def searchAux (r : RE) (l : List Char) : Nat → Nat → Option (Nat × Nat × Caps)
  | 0, _ => none
  | fuel + 1, pos =>
      let rest := l.drop pos
      match (mres r rest (none, none)).head? with
      | some (rem, cp) => some (pos, pos + (rest.length - rem.length), cp)
      | none => searchAux r l fuel (pos + 1)

/-- Python re.search over the whole string. -/
def reSearch (r : RE) (l : List Char) : Option (Nat × Nat × Caps) :=
  searchAux r l (l.length + 1) 0

/-- Python re.findall: non-overlapping matches scanned left to right,
    advancing past each match (one position further for an empty match). -/
def findAux (r : RE) (l : List Char) : Nat → Nat → List (List Char)
  | 0, _ => []
  | fuel + 1, pos =>
      match searchAux r l (l.length + 1 - pos) pos with
      | some (st, en, _) =>
          ((l.drop st).take (en - st)) :: findAux r l fuel (if en > st then en else en + 1)
      | none => []

/-- Python re.findall over the whole string. -/
def reFindall (r : RE) (l : List Char) : List (List Char) := findAux r l (l.length + 1) 0

/-- Literal character, case sensitive. -/
def chOf (c : Char) : RE := .cls (fun x => x == c)

/-- Literal character under the IGNORECASE flag; the argument is given
    in lowercase. -/
def chI (c : Char) : RE := .cls (fun x => x.toLower == c)

/-- Sequence of regexes. -/
def reSeq (l : List RE) : RE := l.foldr .seq .eps

/-- Case-insensitive literal word, written in lowercase. -/
def strI (s : String) : RE := reSeq (s.toList.map chI)

/-- One-or-more repetition of a class, greedy. -/
def plusC (p : Char → Bool) : RE := .seq (.cls p) (.starCls p false)

/-- Optional regex, greedy. -/
def optR (a : RE) : RE := .alt a .eps

/-- Zero-or-more whitespace, greedy. -/
def wsStar : RE := .starCls wsChar false

/-- One-or-more whitespace, greedy. -/
def wsPlus : RE := plusC wsChar

/-- The separator class of a colon or whitespace, one or more times. -/
def colonWs : RE := plusC (fun c => c == ':' || wsChar c)

/-- The optional parenthesised annotation after rate and date labels:
    optional whitespace, an opening parenthesis, a lazy run of any
    non-newline characters, a closing parenthesis; the whole group
    optional. -/
def parenNote : RE := optR (reSeq [wsStar, chOf '(', .starCls (fun c => !(c == '\n')) true, chOf ')'])

/-! String helpers mirroring the Python string methods the source uses. -/

/-- Python str.strip with the ASCII whitespace fragment. -/
def pystrip (s : String) : String :=
  String.mk (((s.toList.dropWhile wsChar).reverse.dropWhile wsChar).reverse)

/-- Python replace of all commas by the empty string. -/
def stripCommas (l : List Char) : List Char := l.filter (fun c => !(c == ','))

/-- Python replace of all dollar signs and commas by the empty string. -/
def stripDollarCommas (l : List Char) : List Char :=
  l.filter (fun c => !(c == '$') && !(c == ','))

/-- Python rstrip with a percent sign argument: drop every trailing
    percent character. -/
def rstripPct (l : List Char) : List Char :=
  (l.reverse.dropWhile (fun c => c == '%')).reverse

/-- Whether the last character is a percent sign, as the endswith test
    in the source. -/
def endsPct (l : List Char) : Bool :=
  match l.getLast? with
  | some c => c == '%'
  | none => false

/-- Value of a digit string read in base ten. -/
def natOfDigits (l : List Char) : Nat := l.foldl (fun a c => 10 * a + (c.toNat - '0'.toNat)) 0

/-- Python float applied to the token shapes the source can produce:
    an optional integer part, an optional dot, an optional fractional
    part, with at least one digit overall.  Any other character makes
    the call raise, which this model renders as none.  The value is kept
    as an exact rational; the source stores it in a double, whose
    rounding is idealised away. -/
def pyFloat (l : List Char) : Option ℚ :=
  let ip := l.takeWhile Char.isDigit
  match l.drop ip.length with
  | [] => if ip.isEmpty then none else some (natOfDigits ip : ℚ)
  | '.' :: fp =>
      if fp.all Char.isDigit && !(ip.isEmpty && fp.isEmpty) then
        some ((natOfDigits ip : ℚ) + (natOfDigits fp : ℚ) / ((10 : ℚ) ^ fp.length))
      else none
  | _ => none

/-- Decimal rendering of a natural number left padded with zeros to a
    given width. -/
def padZ (w : Nat) (k : Nat) : String :=
  let s := toString k
  String.mk (List.replicate (w - s.length) '0') ++ s

/-- Python fixed-point formatting with two decimals of a non-negative
    amount, rounding to cents with ties to even, the rational
    idealisation of the double formatting in the source. -/
def format2 (q : ℚ) : String :=
  let s := q * 100
  let f : ℤ := Rat.floor s
  let r := s - (f : ℚ)
  let n : ℤ := if r > 1 / 2 then f + 1 else if r < 1 / 2 then f else if f % 2 = 0 then f else f + 1
  let m := n.toNat
  toString (m / 100) ++ "." ++ padZ 2 (m % 100)

/-- Substring test: does the needle occur contiguously in the haystack. -/
def containsSub (needle hay : List Char) : Bool :=
  match hay with
  | [] => needle.isEmpty
  | _ :: t => needle.isPrefixOf hay || containsSub needle t

/-- Python str.upper on the ASCII fragment. -/
def pyUpper (s : String) : String := String.mk (s.toList.map Char.toUpper)

/-- Python str.replace of every non-overlapping occurrence of a
    non-empty needle, scanning left to right. -/
def replaceAux (needle repl : List Char) : Nat → List Char → List Char
  | 0, l => l
  | _, [] => []
  | fuel + 1, c :: rest =>
      if needle.isPrefixOf (c :: rest) then
        repl ++ replaceAux needle repl fuel ((c :: rest).drop needle.length)
      else c :: replaceAux needle repl fuel rest

/-- Python str.replace over strings; the needles used by the source are
    never empty. -/
def pyReplace (s needle repl : String) : String :=
  String.mk (replaceAux needle.toList repl.toList (s.length + 1) s.toList)

/-! Data model. -/

/-- One extracted field: a value, a heuristic confidence, and the
    provenance tag of the text the field was read from.  The source
    declares value as optional with a default of None, but every
    construction in the source supplies a string, the empty string for
    the assembler sentinel, so the model uses a plain string. -/
structure FieldExtraction where
  value : String
  confidence : ℚ
  provenance : String
deriving DecidableEq

/-! Regex patterns transcribed from the source, one definition per
    pattern literal.  Class membership functions carry the IGNORECASE
    flag of the corresponding search call: label words are matched case
    insensitively, and the rate class includes the lowercase s exactly
    when the search carries the flag. -/

/-- Digit-or-comma class of the money amount captures. -/
def digitComma (c : Char) : Bool := c.isDigit || c == ','

/-- Class of the rate capture in the primary note-rate pattern: digits
    and the two glyphs the OCR confuses with the digit five, under
    IGNORECASE, so the lowercase s is included. -/
def rateCharI (c : Char) : Bool := c.isDigit || c == '§' || c == 'S' || c == 's'

/-- Case-sensitive glyph-or-digit class of the findall token pattern in
    the secondary note-rate scan. -/
def rateChar (c : Char) : Bool := c.isDigit || c == '§' || c == 'S'

/-- Glyph class of the normalisation patterns: the section sign or the
    capital S, case sensitive since re.match is called without flags. -/
def glyphChar (c : Char) : Bool := c == '§' || c == 'S'

/-- Pattern of extract_principal_balance: the three label alternatives,
    a colon-or-whitespace run, an optional dollar sign, optional
    whitespace, and a captured run of digits and commas with an optional
    dot and optional further digits. -/
def patPrincipal : RE :=
  reSeq [
    .alt (reSeq [strI "principal", wsPlus, strI "balance"])
      (.alt (reSeq [strI "unpaid", wsPlus, strI "principal", wsPlus, strI "balance"])
        (reSeq [strI "principal", wsPlus, strI "balance"])),
    colonWs, optR (chOf '$'), wsStar,
    .grp 1 (reSeq [plusC digitComma, optR (chOf '.'), .starCls Char.isDigit false])]

/-- Primary pattern of extract_note_rate: the three rate labels each
    with an optional parenthesised annotation, a colon-or-whitespace
    run, the captured rate token, optional whitespace and an optional
    percent sign. -/
def patNoteRate : RE :=
  reSeq [
    .alt (reSeq [strI "interest", wsPlus, strI "rate", parenNote])
      (.alt (reSeq [strI "note", wsPlus, strI "rate", parenNote])
        (reSeq [strI "current", wsPlus, strI "interest", wsPlus, strI "rate", parenNote])),
    colonWs,
    .grp 1 (reSeq [plusC rateCharI, optR (chOf '.'), .starCls Char.isDigit false]),
    wsStar, optR (chOf '%')]

/-- Table phrase of the secondary note-rate scan. -/
def patTable : RE := reSeq [strI "interest", wsPlus, strI "rates"]

/-- Findall token pattern of the secondary scan: one or two characters
    of the glyph-or-digit class, a dot, two to four digits and a percent
    sign, searched without flags. -/
def patRateTok : RE :=
  reSeq [.repCls rateChar 1 2, chOf '.', .repCls Char.isDigit 2 4, chOf '%']

/-- Captured amount of the scheduled payment patterns: an optional
    dollar sign, a run of digits and commas, an optional dot and
    optional further digits. -/
def amountGrp : RE :=
  .grp 1 (reSeq [optR (chOf '$'), plusC digitComma, optR (chOf '.'), .starCls Char.isDigit false])

/-- Tier-one pattern of extract_scheduled_pi. -/
def patPiPrimary : RE :=
  reSeq [
    .alt (reSeq [strI "principal", wsPlus, strI "and", wsPlus, strI "interest"])
      (.alt (reSeq [strI "p", chOf '&', strI "i"])
        (.alt (reSeq [strI "p", wsPlus, strI "and", wsPlus, strI "i"])
          (reSeq [strI "principal", wsPlus, chOf '&', wsPlus, strI "interest"]))),
    colonWs, amountGrp]

/-- Tier-two pattern of extract_scheduled_pi. -/
def patPiSecondary : RE :=
  reSeq [
    .alt (reSeq [strI "monthly", wsPlus, strI "payment"])
      (.alt (reSeq [strI "payment", wsPlus, strI "amount"])
        (reSeq [strI "total", wsPlus, strI "payment"])),
    colonWs, amountGrp]

/-- Tier-three pattern of extract_scheduled_pi. -/
def patPiFallback : RE :=
  reSeq [reSeq [strI "amount", wsPlus, strI "due"], colonWs, amountGrp]

/-- Pattern of extract_escrow. -/
def patEscrow : RE :=
  reSeq [
    .alt (reSeq [strI "escrow", wsPlus, strI "payment"]) (strI "escrow"),
    colonWs, optR (chOf '$'), wsStar,
    .grp 1 (reSeq [plusC digitComma, optR (chOf '.'), .starCls Char.isDigit false])]

/-- Date separator class. -/
def dateSep (c : Char) : Bool := c == '/' || c == '-'

/-- Captured date of both date patterns: either one or two digits, a
    separator, one or two digits, a separator and two to four digits, or
    a word, whitespace, one or two digits, an optional comma, whitespace
    and four digits. -/
def dateGrp : RE :=
  .grp 1 (.alt
    (reSeq [.repCls Char.isDigit 1 2, .cls dateSep, .repCls Char.isDigit 1 2, .cls dateSep,
      .repCls Char.isDigit 2 4])
    (reSeq [plusC wordChar, wsPlus, .repCls Char.isDigit 1 2, optR (chOf ','), wsPlus,
      .repCls Char.isDigit 4 4]))

/-- Pattern of extract_next_due_date. -/
def patDue : RE :=
  reSeq [
    .alt (reSeq [strI "next", wsPlus, strI "payment", wsPlus, strI "due", parenNote])
      (.alt (reSeq [strI "payment", wsPlus, strI "due", wsPlus, strI "date", parenNote])
        (reSeq [strI "payment", wsPlus, strI "due", parenNote])),
    colonWs, dateGrp]

/-- Pattern of extract_maturity_date. -/
def patMaturity : RE :=
  reSeq [
    .alt (reSeq [strI "maturity", wsPlus, strI "date"])
      (reSeq [strI "payoff", wsPlus, strI "date"]),
    colonWs, dateGrp]

/-- First normalisation pattern of normalize_rate_token: a glyph, a dot,
    a captured run of three or four digits, a percent sign and the end
    anchor, matched from the start of the token without flags. -/
def patNorm1 : RE :=
  reSeq [.cls glyphChar, chOf '.', .grp 1 (.repCls Char.isDigit 3 4), chOf '%', .dollar]

/-- Second normalisation pattern of normalize_rate_token: a glyph, a
    captured digit, a dot, a captured run of three or four digits, a
    percent sign and the end anchor. -/
def patNorm2 : RE :=
  reSeq [.cls glyphChar, .grp 1 (.cls Char.isDigit), chOf '.',
    .grp 2 (.repCls Char.isDigit 3 4), chOf '%', .dollar]

/-! Field extraction heuristics, one definition per source function. -/

/-- Core of normalize_rate_token on character lists: if the first
    pattern matches, rebuild the token with the digit five in place of
    the misread glyph before the dot; if the second matches, prepend a
    five before the captured digit; otherwise return the token
    unchanged. -/
def normTok (l : List Char) : List Char :=
  match reMatch patNorm1 l with
  | some (some d, _) => '5' :: '.' :: d ++ ['%']
  | _ =>
    match reMatch patNorm2 l with
    | some (some a, some b) => '5' :: a ++ '.' :: b ++ ['%']
    | _ => l

/-- normalize_rate_token of the source. -/
def normalize_rate_token (s : String) : String := String.mk (normTok s.toList)

/-- extract_principal_balance of the source: search the single pattern,
    strip commas from the capture, keep it at confidence 0.9 when the
    float call succeeds. -/
def extract_principal_balance (text : String) (prov : String) : Option FieldExtraction :=
  match reSearch patPrincipal text.toList with
  | some (_, _, some cap, _) =>
      let value := stripCommas cap
      match pyFloat value with
      | some _ => some ⟨String.mk value, 0.9, prov⟩
      | none => none
  | _ => none

/-- Primary half of extract_note_rate: search the labelled pattern,
    append a percent sign when the capture has none, normalise the
    glyphs, strip trailing percent signs, and keep the value at
    confidence 0.90 when it parses to a rate with 0 < rate and
    rate at most 25. -/
def note_rate_primary (text : String) (prov : String) : Option FieldExtraction :=
  match reSearch patNoteRate text.toList with
  | some (_, _, some cap, _) =>
      let captured := if endsPct cap then cap else cap ++ ['%']
      let normalized := normTok captured
      let value := rstripPct normalized
      match pyFloat value with
      | some rate =>
          if rate > 0 ∧ rate ≤ 25 then some ⟨String.mk value, 0.90, prov⟩ else none
      | none => none
  | _ => none

/-- Valid normalised rate values collected from a snippet in the
    secondary scan: find every percent token, normalise each, strip the
    trailing percent sign, and keep the printed values whose rate
    parses with 0 < rate and rate at most 25, in order of appearance. -/
def validRatesOf (snippet : List Char) : List String :=
  let rateTokens := reFindall patRateTok snippet
  let normalizedTokens := rateTokens.map (fun t => normTok t)
  normalizedTokens.filterMap (fun token =>
    let value := rstripPct token
    match pyFloat value with
    | some rate => if rate > 0 ∧ rate ≤ 25 then some (String.mk value) else none
    | none => none)

/-- Number of occurrences of a value in a list. -/
def countOf (v : String) (l : List String) : Nat := l.countP (fun u => u == v)

/-- Scan for the best candidate: replace the current best only on a
    strictly greater count.  Iterating over the values in order of
    appearance with strict replacement computes exactly the first entry
    of Counter.most_common, whose sort is stable and whose insertion
    order is the order of first occurrence. -/
def pickBest (cnt : String → Nat) : String → List String → String
  | b, [] => b
  | b, v :: rest => pickBest cnt (if cnt v > cnt b then v else b) rest

/-- Model of Counter(l).most_common(1): the value of maximal count whose
    first occurrence is earliest. -/
def mostCommon1 (l : List String) : Option String :=
  match l with
  | [] => none
  | v :: rest => some (pickBest (fun u => countOf u l) v rest)

/-- Secondary half of extract_note_rate: when the table phrase occurs,
    scan the five hundred characters after it for percent tokens and
    return the most common valid rate at confidence 0.70. -/
def note_rate_secondary (text : String) (prov : String) : Option FieldExtraction :=
  match reSearch patTable text.toList with
  | some (_, en, _) =>
      let snippet := (text.toList.drop en).take 500
      let validRates := validRatesOf snippet
      match mostCommon1 validRates with
      | some v => some ⟨v, 0.70, prov⟩
      | none => none
  | none => none

/-- extract_note_rate of the source: the primary labelled search, then
    the secondary table scan. -/
def extract_note_rate (text : String) (prov : String) : Option FieldExtraction :=
  match note_rate_primary text prov with
  | some fe => some fe
  | none => note_rate_secondary text prov

/-- Per-token validation step of extract_scheduled_pi: the captured
    token must contain a dollar sign, a comma or a dot, its stripped
    form must parse, and the amount must lie between 100 and 100000
    inclusive; the emitted value is the amount printed with two
    decimals. -/
def pi_validate_token (captured : String) : Option String :=
  let hasDollar := captured.toList.contains '$'
  let hasComma := captured.toList.contains ','
  let hasDecimal := captured.toList.contains '.'
  if !(hasDollar || hasComma || hasDecimal) then none
  else
    let normalized := stripDollarCommas captured.toList
    match pyFloat normalized with
    | some amount =>
        if amount < 100 ∨ amount > 100000 then none
        else some (format2 amount)
    | none => none

/-- Loop of extract_scheduled_pi over the tiered pattern list: on a
    match whose token fails validation the loop continues with the next
    pattern. -/
def pi_loop (text : String) (prov : String) : List (RE × ℚ) → Option FieldExtraction
  | [] => none
  | (pat, confidence) :: rest =>
      match reSearch pat text.toList with
      | some (_, _, some cap, _) =>
          match pi_validate_token (String.mk cap) with
          | some v => some ⟨v, confidence, prov⟩
          | none => pi_loop text prov rest
      | _ => pi_loop text prov rest

/-- extract_scheduled_pi of the source with its three confidence
    tiers. -/
def extract_scheduled_pi (text : String) (prov : String) : Option FieldExtraction :=
  pi_loop text prov [(patPiPrimary, 0.90), (patPiSecondary, 0.80), (patPiFallback, 0.65)]

/-- extract_escrow of the source. -/
def extract_escrow (text : String) (prov : String) : Option FieldExtraction :=
  match reSearch patEscrow text.toList with
  | some (_, _, some cap, _) =>
      let value := stripCommas cap
      match pyFloat value with
      | some _ => some ⟨String.mk value, 0.85, prov⟩
      | none => none
  | _ => none

/-- A calendar date as produced by the external date parsing library. -/
structure PyDate where
  year : Nat
  month : Nat
  day : Nat
deriving DecidableEq

/-- The strftime rendering of a date with a four-digit year and
    two-digit month and day. -/
def isoStr (d : PyDate) : String := padZ 4 d.year ++ "-" ++ padZ 2 d.month ++ "-" ++ padZ 2 d.day

/-- extract_next_due_date of the source, generic over the external date
    parsing oracle dp that models dateutil: when the label pattern
    captures a date string, return the ISO rendering at confidence 0.9
    if the oracle parses it, and the captured string verbatim at
    confidence 0.5 if the oracle raises. -/
def extract_next_due_date (dp : String → Option PyDate) (text : String) (prov : String) :
    Option FieldExtraction :=
  match reSearch patDue text.toList with
  | some (_, _, some cap, _) =>
      match dp (String.mk cap) with
      | some d => some ⟨isoStr d, 0.9, prov⟩
      | none => some ⟨String.mk cap, 0.5, prov⟩
  | _ => none

/-- extract_maturity_date of the source, generic over the same date
    parsing oracle. -/
def extract_maturity_date (dp : String → Option PyDate) (text : String) (prov : String) :
    Option FieldExtraction :=
  match reSearch patMaturity text.toList with
  | some (_, _, some cap, _) =>
      match dp (String.mk cap) with
      | some d => some ⟨isoStr d, 0.9, prov⟩
      | none => some ⟨String.mk cap, 0.5, prov⟩
  | _ => none

/-- Days of a month in the proleptic Gregorian calendar. -/
def daysInMonth (y m : Nat) : Nat :=
  if m = 2 then (if y % 4 = 0 && (y % 100 ≠ 0 || y % 400 = 0) then 29 else 28)
  else if m = 4 || m = 6 || m = 9 || m = 11 then 30 else 31

/-- Build a date from the three numeric parts of a separated token the
    way dateutil does: the first part is the month when it is at most
    twelve, otherwise the parts swap; years below one hundred fall in
    the fifty-year window around the present. -/
def mkDate (a b y0 : Nat) : Option PyDate :=
  let y := if y0 < 100 then (if y0 ≤ 76 then 2000 + y0 else 1900 + y0) else y0
  let md := if a ≤ 12 then (a, b) else (b, a)
  if 1 ≤ md.1 ∧ md.1 ≤ 12 ∧ 1 ≤ md.2 ∧ md.2 ≤ daysInMonth y md.1 then
    some ⟨y, md.1, md.2⟩
  else none

/-- Model of the external dateutil parser on the numeric
    month-day-year tokens the date patterns capture; word-month tokens
    are outside the model and map to none.  The claims about the date
    extractors are stated for an arbitrary oracle, so this concrete
    model is only used to build witnesses. -/
def dateutil_parse (s : String) : Option PyDate :=
  let l := s.toList
  let a := l.takeWhile (fun c => !dateSep c)
  match l.drop a.length with
  | s1 :: r1 =>
      if dateSep s1 then
        let b := r1.takeWhile (fun c => !dateSep c)
        match r1.drop b.length with
        | s2 :: c =>
            if dateSep s2 && a.all Char.isDigit && b.all Char.isDigit && c.all Char.isDigit
                && !a.isEmpty && !b.isEmpty && !c.isEmpty then
              mkDate (natOfDigits a) (natOfDigits b) (natOfDigits c)
            else none
        | [] => none
      else none
  | [] => none

/-! Text acquisition pipeline.  The external effects of the source, the
    pypdf page read, the two tesseract passes, the ocrmypdf invocation
    and the file removal, are modelled by a world record mapping each
    call to either a result or a raised exception; the pipeline control
    flow and the catch blocks are embedded exactly.  The calls with
    effects the claims mention are additionally recorded in an event
    trace. -/

/-- Results of the external calls the acquisition code makes.  Each
    field returns either a value or the message of a raised
    exception. -/
structure World where
  readPdf : String → Except String String
  imageOcr : String → Except String (String × String)
  ocrPdf : String → String → Except String Unit
  removeFile : String → Except String Unit

/-- Body of extract_text_from_pdf before its catch block: read the text
    of the first page, return it with provenance pdf_text when its strip
    is non-empty, and the empty string with the same provenance
    otherwise. -/
def extract_text_from_pdf_body (w : World) (path : String) : Except String (String × String) :=
  (w.readPdf path).map (fun text =>
    if pystrip text ≠ "" then (text, "pdf_text") else ("", "pdf_text"))

/-- extract_text_from_pdf of the source: any exception of the body is
    caught, logged, and turned into empty text with provenance
    pdf_text. -/
def extract_text_from_pdf (w : World) (path : String) : String × String :=
  match extract_text_from_pdf_body w path with
  | .ok r => r
  | .error _ => ("", "pdf_text")

/-- score_text of the source: the number of digit characters, plus
    fifty per keyword occurring in the uppercased text, plus the length
    divided by two hundred. -/
def score_text (text : String) : Nat :=
  let digitCount := text.toList.countP Char.isDigit
  let keywords := ["LOAN", "PAYMENT", "BORROWER", "PRINCIPAL", "INTEREST", "RATE", "MATURITY", "ESCROW"]
  let keywordHits := keywords.countP (fun kw => containsSub kw.toList (pyUpper text).toList)
  digitCount + 50 * keywordHits + text.length / 200

/-- Body of extract_text_from_image before its catch block: the world
    supplies the recognised text of the base pass and of the enhanced
    pass, and the better score wins, the base pass on a tie. -/
def extract_text_from_image_body (w : World) (path : String) : Except String (String × String) :=
  (w.imageOcr path).map (fun r =>
    if score_text r.2 > score_text r.1 then (r.2, "ocr_text") else (r.1, "ocr_text"))

/-- extract_text_from_image of the source: any exception of the body is
    caught, logged, and turned into empty text with provenance
    ocr_text. -/
def extract_text_from_image (w : World) (path : String) : String × String :=
  match extract_text_from_image_body w path with
  | .ok r => r
  | .error _ => ("", "ocr_text")

/-- run_ocrmypdf of the source: true on success, false when the
    invocation raises. -/
def run_ocrmypdf (w : World) (pdfPath outputPath : String) : Bool :=
  match w.ocrPdf pdfPath outputPath with
  | .ok _ => true
  | .error _ => false

/-- External calls with effects recorded by the pipeline model: the
    ocrmypdf invocation and the removal of its output file. -/
inductive Ev where
  | ocrCall (inp outp : String)
  | removeCall (p : String)
deriving DecidableEq

/-- The pdf branch of the acquisition step of process_extraction: read
    the native text, and when its strip is empty or shorter than one
    hundred characters run ocrmypdf into a sibling output path; on
    success re-extract from that output, force provenance ocr_text and
    remove the output inside a catch-all; on failure keep the native
    result.  The removal call is recorded whether or not it succeeds,
    and its outcome is ignored, as the bare except of the source
    swallows it. -/
def pdf_acquire (w : World) (path : String) : (String × String) × List Ev :=
  let tp := extract_text_from_pdf w path
  if pystrip tp.1 = "" ∨ (pystrip tp.1).length < 100 then
    let ocrPdfPath := pyReplace path ".pdf" "_ocr.pdf"
    if run_ocrmypdf w path ocrPdfPath then
      let tp2 := extract_text_from_pdf w ocrPdfPath
      ((tp2.1, "ocr_text"), [Ev.ocrCall path ocrPdfPath, Ev.removeCall ocrPdfPath])
    else (tp, [Ev.ocrCall path ocrPdfPath])
  else (tp, [])

/-- The acquisition step of process_extraction: the pdf branch with its
    fallback, or the image branch. -/
def acquire_text (w : World) (fileType path : String) : (String × String) × List Ev :=
  if fileType == "pdf" then pdf_acquire w path
  else (extract_text_from_image w path, [])

/-! Result assembly. -/

/-- The six field parsers keyed by field name in the order of the
    result dictionary of process_extraction. -/
def run_field_extractors (dp : String → Option PyDate) (text prov : String) :
    List (String × Option FieldExtraction) :=
  [("principal_balance", extract_principal_balance text prov),
   ("note_rate", extract_note_rate text prov),
   ("scheduled_pi", extract_scheduled_pi text prov),
   ("escrow", extract_escrow text prov),
   ("next_due_date", extract_next_due_date dp text prov),
   ("maturity_date", extract_maturity_date dp text prov)]

/-- Field assembly of process_extraction on acquired text: the parsers
    run only when the stripped text is non-empty, and every field left
    without a validated match becomes an empty-value extraction at
    confidence 0.0 carrying the document-level text provenance. -/
def process_extraction_fields (dp : String → Option PyDate) (text prov : String) :
    List (String × FieldExtraction) :=
  let raw : List (String × Option FieldExtraction) :=
    if pystrip text ≠ "" then run_field_extractors dp text prov
    else
      [("principal_balance", none), ("note_rate", none), ("scheduled_pi", none),
       ("escrow", none), ("next_due_date", none), ("maturity_date", none)]
  raw.map (fun nf => (nf.1, nf.2.getD ⟨"", 0.0, prov⟩))

/-- process_extraction of the source restricted to the data the claims
    mention: acquisition with its event trace followed by field
    assembly on the acquired text and provenance. -/
def process_extraction (w : World) (dp : String → Option PyDate) (fileType path : String) :
    List (String × FieldExtraction) × List Ev :=
  let acq := acquire_text w fileType path
  (process_extraction_fields dp acq.1.1 acq.1.2, acq.2)

/-! Auxiliary definitions used by the statements and proofs below. -/

/-- Syntactic nullability: whether a regex can match the empty string. -/
def nullable : RE → Bool
  | .eps => true
  | .cls _ => false
  | .seq a b => nullable a && nullable b
  | .alt a b => nullable a || nullable b
  | .starCls _ _ => true
  | .repCls _ lo _ => lo == 0
  | .grp _ a => nullable a
  | .dollar => true

/-- Whether every capturing group of the regex has a non-nullable body,
    so that every capture it produces is non-empty. -/
def capsOk : RE → Bool
  | .seq a b => capsOk a && capsOk b
  | .alt a b => capsOk a && capsOk b
  | .grp _ a => !nullable a && capsOk a
  | _ => true

/-- Shape of the token tail after the dot in the normalisation patterns:
    a run of exactly three or four digits, then a percent sign at the
    very end or followed by one final newline, which is what the end
    anchor of the Python pattern accepts. -/
def norm1Tail (rest : List Char) : Bool :=
  let ds := rest.takeWhile Char.isDigit
  (ds.length == 3 || ds.length == 4) &&
    (rest.drop ds.length == ['%'] || rest.drop ds.length == ['%', '\n'])

/-- The glyph normalisation as the amended claim words it: a token is
    rewritten exactly when it consists of a section sign or capital S,
    an optional single digit, a dot, exactly three or four digits, and a
    percent sign that ends the token or is followed by one final
    newline; the glyph becomes, or is preceded by, the digit five, the
    fractional digits are kept, and the trailing newline is dropped.
    Every other token is returned unchanged. -/
def normTokSpec (l : List Char) : List Char :=
  match l with
  | g :: '.' :: rest =>
      if glyphChar g && norm1Tail rest then
        '5' :: '.' :: (rest.takeWhile Char.isDigit) ++ ['%']
      else l
  | g :: d :: '.' :: rest =>
      if glyphChar g && d.isDigit && norm1Tail rest then
        '5' :: d :: '.' :: (rest.takeWhile Char.isDigit) ++ ['%']
      else l
  | _ => l

/-- World of the claim three witness: the native read of the original
    file yields sparse text, the layering tool succeeds, the read of its
    output yields new text, and the removal of the output fails, which
    must stay non-fatal. -/
def wit3World : World where
  readPdf := fun p => if p == "doc_ocr.pdf" then .ok "RECOVERED TEXT" else .ok "tiny"
  imageOcr := fun _ => .error "not an image"
  ocrPdf := fun _ _ => .ok ()
  removeFile := fun _ => .error "permission denied"

/-- World of the claim three counterexample: sparse native text and a
    failing layering invocation. -/
def cex3World : World where
  readPdf := fun _ => .ok "tiny"
  imageOcr := fun _ => .error "not an image"
  ocrPdf := fun _ _ => .error "ocrmypdf crashed"
  removeFile := fun _ => .ok ()

/-- World of the claim four witness: every external call raises. -/
def wit4World : World where
  readPdf := fun _ => .error "unreadable pdf"
  imageOcr := fun _ => .error "image decode failed"
  ocrPdf := fun _ _ => .error "invocation failed"
  removeFile := fun _ => .error "io error"

/-- World of the claim eight witness: the two recognition passes return
    fixed texts. -/
def wit8World : World where
  readPdf := fun _ => .error "not a pdf"
  imageOcr := fun _ => .ok ("a1b2", "LOAN 123")
  ocrPdf := fun _ _ => .error "not a pdf"
  removeFile := fun _ => .ok ()

/-! Helper lemmas on lists and on the matcher. -/

theorem clsRun_le (p : Char → Bool) (l : List Char) : clsRun p l ≤ l.length := by
  induction l with
  | nil => simp [clsRun, List.takeWhile]
  | cons c t ih =>
      simp only [clsRun, List.takeWhile] at *
      split
      · simpa using ih
      · simp

theorem drop_clsRun (p : Char → Bool) (l : List Char) :
    l.drop (clsRun p l) = l.dropWhile p := by
  induction l with
  | nil => simp [clsRun]
  | cons c t ih =>
      simp only [clsRun, List.takeWhile, List.dropWhile]
      split
      · simpa [clsRun] using ih
      · simp

theorem take_clsRun (p : Char → Bool) (l : List Char) :
    l.take (clsRun p l) = l.takeWhile p := by
  induction l with
  | nil => simp [clsRun]
  | cons c t ih =>
      simp only [clsRun, List.takeWhile]
      split
      · simpa [clsRun] using ih
      · simp

theorem mem_of_lt_clsRun (p : Char → Bool) (l : List Char) (i : Nat)
    (h : i < clsRun p l) : ∃ c t, l.drop i = c :: t ∧ p c = true := by
  induction l generalizing i with
  | nil => simp [clsRun] at h
  | cons c t ih =>
      simp only [clsRun, List.takeWhile] at h
      by_cases hc : p c
      · simp only [hc] at h
        match i with
        | 0 => exact ⟨c, t, rfl, hc⟩
        | i + 1 =>
            simp only [List.length_cons, Nat.add_lt_add_iff_right] at h
            exact ih i h
      · simp [hc] at h

theorem clsRun_append (p : Char → Bool) (ds : List Char) (c0 : Char) (t : List Char)
    (h : ∀ c ∈ ds, p c = true) (hc : p c0 = false) :
    clsRun p (ds ++ c0 :: t) = ds.length := by
  induction ds with
  | nil => simp [clsRun, List.takeWhile, hc]
  | cons d ds ih =>
      have hd : p d = true := h d (by simp)
      simp only [List.cons_append, clsRun, List.takeWhile, hd]
      have := ih (fun c hcmem => h c (by simp [hcmem]))
      simp only [clsRun] at this
      simp [this]

theorem mres_len (r : RE) : ∀ (s : List Char) (cp : Caps) (res : List Char × Caps),
    res ∈ mres r s cp →
    res.1.length ≤ s.length ∧ (nullable r = false → res.1.length < s.length) := by
  induction r with
  | eps =>
      intro s cp res h
      simp only [mres, List.mem_singleton] at h
      subst h
      simp [nullable]
  | cls p =>
      intro s cp res h
      match s with
      | [] => simp [mres] at h
      | c :: cs =>
          simp only [mres] at h
          split at h
          · simp only [List.mem_singleton] at h
            subst h
            simp
          · simp at h
  | seq a b iha ihb =>
      intro s cp res h
      simp only [mres, List.mem_flatMap] at h
      obtain ⟨x, hx, hres⟩ := h
      have h1 := iha s cp x hx
      have h2 := ihb x.1 x.2 res hres
      constructor
      · exact le_trans h2.1 h1.1
      · intro hn
        simp only [nullable, Bool.and_eq_false_iff] at hn
        rcases hn with hn | hn
        · exact lt_of_le_of_lt h2.1 (h1.2 hn)
        · exact lt_of_lt_of_le (h2.2 hn) h1.1
  | alt a b iha ihb =>
      intro s cp res h
      simp only [mres, List.mem_append] at h
      rcases h with h | h
      · have h1 := iha s cp res h
        refine ⟨h1.1, fun hn => ?_⟩
        simp only [nullable, Bool.or_eq_false_iff] at hn
        exact h1.2 hn.1
      · have h1 := ihb s cp res h
        refine ⟨h1.1, fun hn => ?_⟩
        simp only [nullable, Bool.or_eq_false_iff] at hn
        exact h1.2 hn.2
  | starCls p lz =>
      intro s cp res h
      simp only [mres, List.mem_map] at h
      obtain ⟨i, _, hres⟩ := h
      subst hres
      simp [nullable]
  | repCls p lo hi =>
      intro s cp res h
      simp only [mres, List.mem_map] at h
      obtain ⟨i, hi', hres⟩ := h
      subst hres
      simp only [repCands] at hi'
      split at hi'
      · simp at hi'
      · simp only [List.mem_reverse, List.mem_range'_1] at hi'
        have hione : lo ≤ i := hi'.1
        have hitop : i < lo + (min hi (clsRun p s) - lo + 1) := hi'.2
        have hirun : i ≤ clsRun p s := by omega
        have hrun := clsRun_le p s
        constructor
        · simp
        · intro hn
          simp only [nullable, beq_eq_false_iff_ne, ne_eq] at hn
          have : 1 ≤ i := by omega
          simp only [List.length_drop]
          omega
  | grp i a iha =>
      intro s cp res h
      simp only [mres, List.mem_map] at h
      obtain ⟨x, hx, hres⟩ := h
      subst hres
      have h1 := iha s cp x hx
      exact ⟨h1.1, fun hn => h1.2 hn⟩
  | dollar =>
      intro s cp res h
      simp only [mres] at h
      split at h
      · simp only [List.mem_singleton] at h
        subst h
        simp [nullable]
      · simp at h

/-- A capture slot produced by the matcher is either the incoming slot
    or a non-empty slice, as long as every group body is
    non-nullable. -/
theorem mres_caps (r : RE) (hok : capsOk r = true) :
    ∀ (s : List Char) (cp : Caps) (res : List Char × Caps), res ∈ mres r s cp →
    (res.2.1 = cp.1 ∨ ∃ l, res.2.1 = some l ∧ l ≠ []) ∧
    (res.2.2 = cp.2 ∨ ∃ l, res.2.2 = some l ∧ l ≠ []) := by
  induction r with
  | eps =>
      intro s cp res h
      simp only [mres, List.mem_singleton] at h
      subst h
      exact ⟨Or.inl rfl, Or.inl rfl⟩
  | cls p =>
      intro s cp res h
      match s with
      | [] => simp [mres] at h
      | c :: cs =>
          simp only [mres] at h
          split at h
          · simp only [List.mem_singleton] at h
            subst h
            exact ⟨Or.inl rfl, Or.inl rfl⟩
          · simp at h
  | seq a b iha ihb =>
      intro s cp res h
      simp only [capsOk, Bool.and_eq_true] at hok
      simp only [mres, List.mem_flatMap] at h
      obtain ⟨x, hx, hres⟩ := h
      have h1 := iha hok.1 s cp x hx
      have h2 := ihb hok.2 x.1 x.2 res hres
      constructor
      · rcases h2.1 with h2a | h2a
        · rw [h2a]; exact h1.1
        · exact Or.inr h2a
      · rcases h2.2 with h2a | h2a
        · rw [h2a]; exact h1.2
        · exact Or.inr h2a
  | alt a b iha ihb =>
      intro s cp res h
      simp only [capsOk, Bool.and_eq_true] at hok
      simp only [mres, List.mem_append] at h
      rcases h with h | h
      · exact iha hok.1 s cp res h
      · exact ihb hok.2 s cp res h
  | starCls p lz =>
      intro s cp res h
      simp only [mres, List.mem_map] at h
      obtain ⟨i, _, hres⟩ := h
      subst hres
      exact ⟨Or.inl rfl, Or.inl rfl⟩
  | repCls p lo hi =>
      intro s cp res h
      simp only [mres, List.mem_map] at h
      obtain ⟨i, _, hres⟩ := h
      subst hres
      exact ⟨Or.inl rfl, Or.inl rfl⟩
  | grp i a iha =>
      intro s cp res h
      simp only [capsOk, Bool.and_eq_true, Bool.not_eq_true'] at hok
      simp only [mres, List.mem_map] at h
      obtain ⟨x, hx, hres⟩ := h
      subst hres
      have hlen := (mres_len a s cp x hx).2 hok.1
      have hinner := iha hok.2 s cp x hx
      have hne : s.take (s.length - x.1.length) ≠ [] := by
        rw [ne_eq, List.take_eq_nil_iff]
        push_neg
        constructor
        · omega
        · intro hs
          subst hs
          simp at hlen
      by_cases h1 : i = 1
      · subst h1
        refine ⟨Or.inr ⟨_, rfl, hne⟩, ?_⟩
        simpa [setCap] using hinner.2
      · by_cases h2 : i = 2
        · subst h2
          refine ⟨?_, Or.inr ⟨_, ?_, hne⟩⟩
          · simpa [setCap, h1] using hinner.1
          · simp [setCap, h1]
        · constructor
          · simpa [setCap, h1, h2] using hinner.1
          · simpa [setCap, h1, h2] using hinner.2
  | dollar =>
      intro s cp res h
      simp only [mres] at h
      split at h
      · simp only [List.mem_singleton] at h
        subst h
        exact ⟨Or.inl rfl, Or.inl rfl⟩
      · simp at h

/-- Captures returned by the search are non-empty when every group body
    of the pattern is non-nullable. -/
theorem searchAux_caps (r : RE) (hok : capsOk r = true) (l : List Char) :
    ∀ (fuel pos st en : Nat) (cps : Caps), searchAux r l fuel pos = some (st, en, cps) →
    (cps.1 = none ∨ ∃ c, cps.1 = some c ∧ c ≠ []) ∧
    (cps.2 = none ∨ ∃ c, cps.2 = some c ∧ c ≠ []) := by
  intro fuel
  induction fuel with
  | zero => intro pos st en cps h; simp [searchAux] at h
  | succ fuel ih =>
      intro pos st en cps h
      simp only [searchAux] at h
      cases hh : ((mres r (l.drop pos) (none, none)).head?) with
      | none =>
          rw [hh] at h
          exact ih (pos + 1) st en cps h
      | some x =>
          rw [hh] at h
          simp only [Option.some.injEq] at h
          have hmem : x ∈ mres r (l.drop pos) (none, none) :=
            List.mem_of_mem_head? (by simp [hh])
          have := mres_caps r hok (l.drop pos) (none, none) x hmem
          have hcps : cps = x.2 := by
            have := h.symm
            cases x with
            | mk a b => simp_all
          subst hcps
          exact this

theorem reSearch_caps (r : RE) (hok : capsOk r = true) (l : List Char)
    (st en : Nat) (c : List Char) (c2 : Option (List Char))
    (h : reSearch r l = some (st, en, some c, c2)) : c ≠ [] := by
  have := searchAux_caps r hok l (l.length + 1) 0 st en (some c, c2) h
  rcases this.1 with h1 | ⟨c', hc', hne⟩
  · simp at h1
  · simp only [Option.some.injEq] at hc'
    subst hc'
    exact hne

/-! Facts about the numeric and string helpers. -/

theorem pyFloat_ne_nil (l : List Char) (q : ℚ) (h : pyFloat l = some q) : l ≠ [] := by
  intro hl
  subst hl
  simp [pyFloat, List.takeWhile] at h

theorem mk_eq_empty_iff (l : List Char) : String.mk l = "" ↔ l = [] := by
  constructor
  · intro h
    have := congrArg String.data h
    simpa using this
  · intro h
    subst h
    rfl

theorem format2_ne_empty (q : ℚ) : format2 q ≠ "" := by
  intro h
  have hlen := congrArg String.length h
  simp only [format2, String.length_append] at hlen
  have hdot : (".").length = 1 := rfl
  have hempty : ("" : String).length = 0 := rfl
  omega

theorem isoStr_ne_empty (d : PyDate) : isoStr d ≠ "" := by
  intro h
  have hlen := congrArg String.length h
  simp only [isoStr, String.length_append] at hlen
  have hdash : ("-").length = 1 := rfl
  have hempty : ("" : String).length = 0 := rfl
  omega

theorem pickBest_mem (cnt : String → Nat) :
    ∀ (cs : List String) (b : String), pickBest cnt b cs ∈ b :: cs := by
  intro cs
  induction cs with
  | nil => intro b; exact List.mem_cons_self b []
  | cons v rest ih =>
      intro b
      simp only [pickBest]
      rcases List.mem_cons.mp (ih (if cnt v > cnt b then v else b)) with h | h
      · rw [h]
        split
        · exact List.mem_cons.mpr (Or.inr (List.mem_cons_self _ _))
        · exact List.mem_cons_self _ _
      · exact List.mem_cons.mpr (Or.inr (List.mem_cons.mpr (Or.inr h)))

/-- The scan with strict replacement returns an element of maximal
    count whose first occurrence comes before every other occurrence of
    that count: everything strictly before it counts strictly less. -/
theorem pickBest_spec (cnt : String → Nat) :
    ∀ (cs : List String) (b : String),
    (∀ u ∈ cs, cnt u ≤ cnt (pickBest cnt b cs)) ∧
    cnt b ≤ cnt (pickBest cnt b cs) ∧
    (pickBest cnt b cs = b ∨
      ∃ pre post, cs = pre ++ pickBest cnt b cs :: post ∧
        cnt b < cnt (pickBest cnt b cs) ∧
        ∀ u ∈ pre, cnt u < cnt (pickBest cnt b cs)) := by
  intro cs
  induction cs with
  | nil => intro b; simp [pickBest]
  | cons v rest ih =>
      intro b
      simp only [pickBest]
      by_cases hv : cnt v > cnt b
      · simp only [if_pos hv]
        obtain ⟨hall, hbase, hstruct⟩ := ih v
        refine ⟨?_, by omega, ?_⟩
        · intro u hu
          rcases List.mem_cons.mp hu with h | h
          · subst h; exact hbase
          · exact hall u h
        · rcases hstruct with h | ⟨pre, post, heq, hlt, hpre⟩
          · refine Or.inr ⟨[], rest, ?_, ?_, ?_⟩
            · rw [h]; rfl
            · rw [h]; omega
            · simp
          · refine Or.inr ⟨v :: pre, post, ?_, ?_, ?_⟩
            · exact congrArg (fun t => v :: t) heq
            · omega
            · intro u hu
              rcases List.mem_cons.mp hu with h | h
              · subst h; omega
              · exact hpre u h
      · simp only [if_neg hv]
        obtain ⟨hall, hbase, hstruct⟩ := ih b
        refine ⟨?_, hbase, ?_⟩
        · intro u hu
          rcases List.mem_cons.mp hu with h | h
          · subst h; omega
          · exact hall u h
        · rcases hstruct with h | ⟨pre, post, heq, hlt, hpre⟩
          · exact Or.inl h
          · refine Or.inr ⟨v :: pre, post, ?_, ?_, ?_⟩
            · exact congrArg (fun t => v :: t) heq
            · exact hlt
            · intro u hu
              rcases List.mem_cons.mp hu with h | h
              · subst h; omega
              · exact hpre u h

theorem mostCommon1_mem (l : List String) (v : String) (h : mostCommon1 l = some v) :
    v ∈ l := by
  match l with
  | [] => simp [mostCommon1] at h
  | w :: rest =>
      simp only [mostCommon1, Option.some.injEq] at h
      subst h
      exact pickBest_mem _ rest w

/-- Full specification of the Counter model on a non-empty list: the
    result occurs in the list, has maximal count, and everything before
    its first occurrence has strictly smaller count. -/
theorem mostCommon1_spec (l : List String) (v : String) (h : mostCommon1 l = some v) :
    v ∈ l ∧ (∀ u ∈ l, countOf u l ≤ countOf v l) ∧
    ∃ pre post, l = pre ++ v :: post ∧ ∀ u ∈ pre, countOf u l < countOf v l := by
  match l with
  | [] => simp [mostCommon1] at h
  | w :: rest =>
      simp only [mostCommon1, Option.some.injEq] at h
      obtain ⟨hall, hbase, hstruct⟩ := pickBest_spec (fun u => countOf u (w :: rest)) rest w
      rw [h] at hall hbase hstruct
      refine ⟨mostCommon1_mem _ _ (by simp [mostCommon1, h]), ?_, ?_⟩
      · intro u hu
        rcases List.mem_cons.mp hu with h1 | h1
        · subst h1; exact hbase
        · exact hall u h1
      · rcases hstruct with h1 | ⟨pre, post, heq, _, hpre⟩
        · exact ⟨[], rest, by simp [h1], by simp⟩
        · refine ⟨w :: pre, post, by simp [heq], ?_⟩
          intro u hu
          rcases List.mem_cons.mp hu with h1 | h1
          · subst h1; omega
          · exact hpre u h1

/-- Every value in the valid-rates list of the secondary scan parses to
    a rate within the sanity bounds, and in particular is non-empty. -/
theorem validRatesOf_mem (snippet : List Char) (u : String) (h : u ∈ validRatesOf snippet) :
    (∃ r : ℚ, pyFloat u.toList = some r ∧ r > 0 ∧ r ≤ 25) ∧ u ≠ "" := by
  simp only [validRatesOf, List.mem_filterMap] at h
  obtain ⟨tok, _, htok⟩ := h
  split at htok
  · next rate hpf =>
      split at htok
      · next hb =>
          simp only [Option.some.injEq] at htok
          subst htok
          have htl : (String.mk (rstripPct tok)).toList = rstripPct tok := rfl
          refine ⟨⟨rate, by rw [htl]; exact hpf, hb.1, hb.2⟩, ?_⟩
          rw [ne_eq, mk_eq_empty_iff]
          exact pyFloat_ne_nil _ _ hpf
      · simp at htok
  · simp at htok

/-! Output shape of each field extractor. -/

theorem extract_principal_balance_some (text prov : String) (fe : FieldExtraction)
    (h : extract_principal_balance text prov = some fe) :
    fe.value ≠ "" ∧ fe.confidence = 0.9 ∧ fe.provenance = prov := by
  simp only [extract_principal_balance] at h
  split at h
  · next cap =>
      split at h
      · next q hq =>
          simp only [Option.some.injEq] at h
          subst h
          refine ⟨?_, rfl, rfl⟩
          rw [ne_eq, mk_eq_empty_iff]
          exact pyFloat_ne_nil _ _ hq
      · simp at h
  · simp at h

theorem extract_escrow_some (text prov : String) (fe : FieldExtraction)
    (h : extract_escrow text prov = some fe) :
    fe.value ≠ "" ∧ fe.confidence = 0.85 ∧ fe.provenance = prov := by
  simp only [extract_escrow] at h
  split at h
  · next cap =>
      split at h
      · next q hq =>
          simp only [Option.some.injEq] at h
          subst h
          refine ⟨?_, rfl, rfl⟩
          rw [ne_eq, mk_eq_empty_iff]
          exact pyFloat_ne_nil _ _ hq
      · simp at h
  · simp at h

theorem note_rate_primary_some (text prov : String) (fe : FieldExtraction)
    (h : note_rate_primary text prov = some fe) :
    fe.value ≠ "" ∧ fe.confidence = 0.90 ∧ fe.provenance = prov := by
  simp only [note_rate_primary] at h
  split at h
  · next cap =>
      split at h
      · next rate hq =>
          split at h
          · simp only [Option.some.injEq] at h
            subst h
            refine ⟨?_, rfl, rfl⟩
            rw [ne_eq, mk_eq_empty_iff]
            exact pyFloat_ne_nil _ _ hq
          · simp at h
      · simp at h
  · simp at h

theorem note_rate_secondary_some (text prov : String) (fe : FieldExtraction)
    (h : note_rate_secondary text prov = some fe) :
    fe.value ≠ "" ∧ fe.confidence = 0.70 ∧ fe.provenance = prov := by
  simp only [note_rate_secondary] at h
  split at h
  · next st en cps =>
      split at h
      · next v hv =>
          simp only [Option.some.injEq] at h
          subst h
          refine ⟨?_, rfl, rfl⟩
          exact (validRatesOf_mem _ _ (mostCommon1_mem _ _ hv)).2
      · simp at h
  · simp at h

theorem extract_note_rate_some (text prov : String) (fe : FieldExtraction)
    (h : extract_note_rate text prov = some fe) :
    fe.value ≠ "" ∧ (fe.confidence = 0.90 ∨ fe.confidence = 0.70) ∧ fe.provenance = prov := by
  simp only [extract_note_rate] at h
  split at h
  · next fe' hp =>
      simp only [Option.some.injEq] at h
      subst h
      obtain ⟨h1, h2, h3⟩ := note_rate_primary_some text prov fe' hp
      exact ⟨h1, Or.inl h2, h3⟩
  · obtain ⟨h1, h2, h3⟩ := note_rate_secondary_some text prov fe h
    exact ⟨h1, Or.inr h2, h3⟩

theorem pi_validate_token_some (captured : String) (v : String)
    (h : pi_validate_token captured = some v) :
    ∃ a : ℚ, pyFloat (stripDollarCommas captured.toList) = some a ∧
      ¬(a < 100 ∨ a > 100000) ∧ v = format2 a := by
  simp only [pi_validate_token] at h
  split at h
  · simp at h
  · split at h
    · next a ha =>
        split at h
        · simp at h
        · next hb =>
            simp only [Option.some.injEq] at h
            exact ⟨a, ha, hb, h.symm⟩
    · simp at h

theorem pi_loop_some (text prov : String) :
    ∀ (pats : List (RE × ℚ)) (fe : FieldExtraction),
    pi_loop text prov pats = some fe →
    fe.value ≠ "" ∧ (∃ pc ∈ pats, fe.confidence = pc.2) ∧ fe.provenance = prov := by
  intro pats
  induction pats with
  | nil => intro fe h; simp [pi_loop] at h
  | cons pc rest ih =>
      intro fe h
      simp only [pi_loop] at h
      split at h
      · next cap =>
          split at h
          · next v hv =>
              simp only [Option.some.injEq] at h
              subst h
              obtain ⟨a, _, _, hvfmt⟩ := pi_validate_token_some _ _ hv
              refine ⟨?_, ⟨pc, by simp, rfl⟩, rfl⟩
              simpa [hvfmt] using format2_ne_empty a
          · obtain ⟨h1, ⟨pc', hpc', h2⟩, h3⟩ := ih fe h
            exact ⟨h1, ⟨pc', by simp [hpc'], h2⟩, h3⟩
      · obtain ⟨h1, ⟨pc', hpc', h2⟩, h3⟩ := ih fe h
        exact ⟨h1, ⟨pc', by simp [hpc'], h2⟩, h3⟩

theorem extract_scheduled_pi_some (text prov : String) (fe : FieldExtraction)
    (h : extract_scheduled_pi text prov = some fe) :
    fe.value ≠ "" ∧ (fe.confidence = 0.90 ∨ fe.confidence = 0.80 ∨ fe.confidence = 0.65) ∧
      fe.provenance = prov := by
  obtain ⟨h1, ⟨pc, hpc, h2⟩, h3⟩ := pi_loop_some text prov _ fe h
  refine ⟨h1, ?_, h3⟩
  simp only [List.mem_cons, List.not_mem_nil, or_false] at hpc
  rcases hpc with h4 | h4 | h4 <;> rw [h2, h4]
  · exact Or.inl rfl
  · exact Or.inr (Or.inl rfl)
  · exact Or.inr (Or.inr rfl)

theorem extract_next_due_date_some (dp : String → Option PyDate) (text prov : String)
    (fe : FieldExtraction) (h : extract_next_due_date dp text prov = some fe) :
    fe.value ≠ "" ∧ (fe.confidence = 0.9 ∨ fe.confidence = 0.5) ∧ fe.provenance = prov := by
  simp only [extract_next_due_date] at h
  split at h
  · next st en cap c2 hsearch =>
      have hcap : cap ≠ [] := reSearch_caps patDue (by rfl) text.toList st en cap c2 hsearch
      split at h
      · next d _ =>
          simp only [Option.some.injEq] at h
          subst h
          exact ⟨isoStr_ne_empty d, Or.inl rfl, rfl⟩
      · simp only [Option.some.injEq] at h
        subst h
        refine ⟨?_, Or.inr rfl, rfl⟩
        rw [ne_eq, mk_eq_empty_iff]
        exact hcap
  · simp at h

theorem extract_maturity_date_some (dp : String → Option PyDate) (text prov : String)
    (fe : FieldExtraction) (h : extract_maturity_date dp text prov = some fe) :
    fe.value ≠ "" ∧ (fe.confidence = 0.9 ∨ fe.confidence = 0.5) ∧ fe.provenance = prov := by
  simp only [extract_maturity_date] at h
  split at h
  · next st en cap c2 hsearch =>
      have hcap : cap ≠ [] := reSearch_caps patMaturity (by rfl) text.toList st en cap c2 hsearch
      split at h
      · next d _ =>
          simp only [Option.some.injEq] at h
          subst h
          exact ⟨isoStr_ne_empty d, Or.inl rfl, rfl⟩
      · simp only [Option.some.injEq] at h
        subst h
        refine ⟨?_, Or.inr rfl, rfl⟩
        rw [ne_eq, mk_eq_empty_iff]
        exact hcap
  · simp at h

/-! Confidence bounds of each extractor output. -/

theorem principal_bounds (text prov : String) (fe : FieldExtraction)
    (h : extract_principal_balance text prov = some fe) :
    fe.value ≠ "" ∧ 0 < fe.confidence ∧ fe.confidence ≤ 1 := by
  obtain ⟨h1, h2, _⟩ := extract_principal_balance_some text prov fe h
  rw [h2]
  exact ⟨h1, by norm_num, by norm_num⟩

theorem escrow_bounds (text prov : String) (fe : FieldExtraction)
    (h : extract_escrow text prov = some fe) :
    fe.value ≠ "" ∧ 0 < fe.confidence ∧ fe.confidence ≤ 1 := by
  obtain ⟨h1, h2, _⟩ := extract_escrow_some text prov fe h
  rw [h2]
  exact ⟨h1, by norm_num, by norm_num⟩

theorem note_rate_bounds (text prov : String) (fe : FieldExtraction)
    (h : extract_note_rate text prov = some fe) :
    fe.value ≠ "" ∧ 0 < fe.confidence ∧ fe.confidence ≤ 1 := by
  obtain ⟨h1, h2, _⟩ := extract_note_rate_some text prov fe h
  rcases h2 with h2 | h2 <;> rw [h2]
  · exact ⟨h1, by norm_num, by norm_num⟩
  · exact ⟨h1, by norm_num, by norm_num⟩

theorem scheduled_pi_bounds (text prov : String) (fe : FieldExtraction)
    (h : extract_scheduled_pi text prov = some fe) :
    fe.value ≠ "" ∧ 0 < fe.confidence ∧ fe.confidence ≤ 1 := by
  obtain ⟨h1, h2, _⟩ := extract_scheduled_pi_some text prov fe h
  rcases h2 with h2 | h2 | h2 <;> rw [h2]
  · exact ⟨h1, by norm_num, by norm_num⟩
  · exact ⟨h1, by norm_num, by norm_num⟩
  · exact ⟨h1, by norm_num, by norm_num⟩

theorem next_due_bounds (dp : String → Option PyDate) (text prov : String)
    (fe : FieldExtraction) (h : extract_next_due_date dp text prov = some fe) :
    fe.value ≠ "" ∧ 0 < fe.confidence ∧ fe.confidence ≤ 1 := by
  obtain ⟨h1, h2, _⟩ := extract_next_due_date_some dp text prov fe h
  rcases h2 with h2 | h2 <;> rw [h2]
  · exact ⟨h1, by norm_num, by norm_num⟩
  · exact ⟨h1, by norm_num, by norm_num⟩

theorem maturity_bounds (dp : String → Option PyDate) (text prov : String)
    (fe : FieldExtraction) (h : extract_maturity_date dp text prov = some fe) :
    fe.value ≠ "" ∧ 0 < fe.confidence ∧ fe.confidence ≤ 1 := by
  obtain ⟨h1, h2, _⟩ := extract_maturity_date_some dp text prov fe h
  rcases h2 with h2 | h2 <;> rw [h2]
  · exact ⟨h1, by norm_num, by norm_num⟩
  · exact ⟨h1, by norm_num, by norm_num⟩

/-! Claim theorems. -/

/-- Claim C1: for every input text and provenance the assembled result
    contains exactly the six field keys, in the fixed order, and every
    field whose parser produced no validated match is the empty-value
    extraction at confidence 0.0 whose provenance is the document-level
    text provenance, never a distinct none tag. -/
theorem claim1_schema_stable (dp : String → Option PyDate) (text prov : String) :
    ((process_extraction_fields dp text prov).map Prod.fst =
      ["principal_balance", "note_rate", "scheduled_pi", "escrow", "next_due_date",
       "maturity_date"]) ∧
    (∀ name fe, (name, fe) ∈ process_extraction_fields dp text prov →
      (name, (none : Option FieldExtraction)) ∈ run_field_extractors dp text prov →
      fe = ⟨"", 0.0, prov⟩) := by
  by_cases hstrip : pystrip text ≠ ""
  · constructor
    · simp [process_extraction_fields, run_field_extractors, if_pos hstrip]
    · intro name fe hmem hnone
      simp only [process_extraction_fields, run_field_extractors, if_pos hstrip,
        List.map_cons, List.map_nil, List.mem_cons, List.not_mem_nil, or_false,
        Prod.mk.injEq] at hmem hnone
      rcases hmem with ⟨rfl, rfl⟩ | ⟨rfl, rfl⟩ | ⟨rfl, rfl⟩ | ⟨rfl, rfl⟩ | ⟨rfl, rfl⟩ | ⟨rfl, rfl⟩ <;>
        simp only [String.reduceEq, false_and, false_or, or_false, true_and] at hnone <;>
        (rw [← hnone]; rfl)
  · constructor
    · simp [process_extraction_fields, if_neg hstrip]
    · intro name fe hmem _
      simp only [process_extraction_fields, if_neg hstrip, List.map_cons, List.map_nil,
        List.mem_cons, List.not_mem_nil, or_false, Prod.mk.injEq] at hmem
      rcases hmem with ⟨_, rfl⟩ | ⟨_, rfl⟩ | ⟨_, rfl⟩ | ⟨_, rfl⟩ | ⟨_, rfl⟩ | ⟨_, rfl⟩ <;> rfl

/-- Claim C2: every field extraction in an assembled result has a
    confidence between zero and one, and an empty value forces
    confidence zero; moreover every field parser that returns an
    extraction returns a non-empty value with positive confidence, so
    the only empty-value extraction is the assembler sentinel. -/
theorem claim2_confidence_invariants (dp : String → Option PyDate) (text prov : String) :
    (∀ name fe, (name, fe) ∈ process_extraction_fields dp text prov →
      0 ≤ fe.confidence ∧ fe.confidence ≤ 1 ∧ (fe.value = "" → fe.confidence = 0)) ∧
    (∀ fe, extract_principal_balance text prov = some fe → fe.value ≠ "" ∧ 0 < fe.confidence) ∧
    (∀ fe, extract_note_rate text prov = some fe → fe.value ≠ "" ∧ 0 < fe.confidence) ∧
    (∀ fe, extract_scheduled_pi text prov = some fe → fe.value ≠ "" ∧ 0 < fe.confidence) ∧
    (∀ fe, extract_escrow text prov = some fe → fe.value ≠ "" ∧ 0 < fe.confidence) ∧
    (∀ fe, extract_next_due_date dp text prov = some fe → fe.value ≠ "" ∧ 0 < fe.confidence) ∧
    (∀ fe, extract_maturity_date dp text prov = some fe → fe.value ≠ "" ∧ 0 < fe.confidence) := by
  have hP : ∀ (o : Option FieldExtraction),
      (∀ fe', o = some fe' → fe'.value ≠ "" ∧ 0 < fe'.confidence ∧ fe'.confidence ≤ 1) →
      ∀ fe, fe = o.getD ⟨"", 0.0, prov⟩ →
      0 ≤ fe.confidence ∧ fe.confidence ≤ 1 ∧ (fe.value = "" → fe.confidence = 0) := by
    intro o ho fe hfe
    subst hfe
    cases o with
    | none => exact ⟨by norm_num, by norm_num, fun _ => by norm_num⟩
    | some fg =>
        obtain ⟨h1, h2, h3⟩ := ho fg rfl
        exact ⟨le_of_lt h2, h3, fun hv => absurd hv h1⟩
  refine ⟨?_, ?_, ?_, ?_, ?_, ?_, ?_⟩
  · intro name fe hmem
    by_cases hstrip : pystrip text ≠ ""
    · simp only [process_extraction_fields, run_field_extractors, if_pos hstrip,
        List.map_cons, List.map_nil, List.mem_cons, List.not_mem_nil, or_false,
        Prod.mk.injEq] at hmem
      rcases hmem with ⟨_, rfl⟩ | ⟨_, rfl⟩ | ⟨_, rfl⟩ | ⟨_, rfl⟩ | ⟨_, rfl⟩ | ⟨_, rfl⟩
      · exact hP _ (fun fe' h => principal_bounds text prov fe' h) _ rfl
      · exact hP _ (fun fe' h => note_rate_bounds text prov fe' h) _ rfl
      · exact hP _ (fun fe' h => scheduled_pi_bounds text prov fe' h) _ rfl
      · exact hP _ (fun fe' h => escrow_bounds text prov fe' h) _ rfl
      · exact hP _ (fun fe' h => next_due_bounds dp text prov fe' h) _ rfl
      · exact hP _ (fun fe' h => maturity_bounds dp text prov fe' h) _ rfl
    · simp only [process_extraction_fields, if_neg hstrip, List.map_cons, List.map_nil,
        List.mem_cons, List.not_mem_nil, or_false, Prod.mk.injEq] at hmem
      rcases hmem with ⟨_, rfl⟩ | ⟨_, rfl⟩ | ⟨_, rfl⟩ | ⟨_, rfl⟩ | ⟨_, rfl⟩ | ⟨_, rfl⟩ <;>
        exact hP none (by intro fe' hfe'; cases hfe') _ rfl
  · intro fe h
    obtain ⟨h1, h2, _⟩ := principal_bounds text prov fe h
    exact ⟨h1, h2⟩
  · intro fe h
    obtain ⟨h1, h2, _⟩ := note_rate_bounds text prov fe h
    exact ⟨h1, h2⟩
  · intro fe h
    obtain ⟨h1, h2, _⟩ := scheduled_pi_bounds text prov fe h
    exact ⟨h1, h2⟩
  · intro fe h
    obtain ⟨h1, h2, _⟩ := escrow_bounds text prov fe h
    exact ⟨h1, h2⟩
  · intro fe h
    obtain ⟨h1, h2, _⟩ := next_due_bounds dp text prov fe h
    exact ⟨h1, h2⟩
  · intro fe h
    obtain ⟨h1, h2, _⟩ := maturity_bounds dp text prov fe h
    exact ⟨h1, h2⟩

/-- Witness for claim C1 at a concrete text: the key list is exact, and
    the note-rate field, whose parser matched nothing, is the assembler
    sentinel with the document provenance. -/
theorem claim1_schema_stable_witness :
    ((process_extraction_fields dateutil_parse "Maturity Date: 01/15/2045" "pdf_text").map
        Prod.fst =
      ["principal_balance", "note_rate", "scheduled_pi", "escrow", "next_due_date",
       "maturity_date"]) ∧
    (("note_rate", (⟨"", 0.0, "pdf_text"⟩ : FieldExtraction)) ∈
      process_extraction_fields dateutil_parse "Maturity Date: 01/15/2045" "pdf_text") ∧
    (("note_rate", (none : Option FieldExtraction)) ∈
      run_field_extractors dateutil_parse "Maturity Date: 01/15/2045" "pdf_text") ∧
    (⟨"", 0.0, "pdf_text"⟩ : FieldExtraction) = ⟨"", 0.0, "pdf_text"⟩ :=
  ⟨(claim1_schema_stable dateutil_parse "Maturity Date: 01/15/2045" "pdf_text").1,
   by with_unfolding_all decide,
   by with_unfolding_all decide,
   (claim1_schema_stable dateutil_parse "Maturity Date: 01/15/2045" "pdf_text").2
     "note_rate" ⟨"", 0.0, "pdf_text"⟩ (by with_unfolding_all decide)
     (by with_unfolding_all decide)⟩

/-- Witness for claim C2 at a concrete text: the parsed maturity field
    is a member of the result and satisfies the confidence
    invariants. -/
theorem claim2_confidence_invariants_witness :
    (("maturity_date", (⟨"2045-01-15", 0.9, "pdf_text"⟩ : FieldExtraction)) ∈
      process_extraction_fields dateutil_parse "Maturity Date: 01/15/2045" "pdf_text") ∧
    (0 ≤ (⟨"2045-01-15", 0.9, "pdf_text"⟩ : FieldExtraction).confidence ∧
      (⟨"2045-01-15", 0.9, "pdf_text"⟩ : FieldExtraction).confidence ≤ 1 ∧
      ((⟨"2045-01-15", 0.9, "pdf_text"⟩ : FieldExtraction).value = "" →
        (⟨"2045-01-15", 0.9, "pdf_text"⟩ : FieldExtraction).confidence = 0)) :=
  ⟨by with_unfolding_all decide,
   (claim2_confidence_invariants dateutil_parse "Maturity Date: 01/15/2045" "pdf_text").1
     "maturity_date" _ (by with_unfolding_all decide)⟩

/-- Claim C4: every acquisition failure is caught rather than
    propagated, and yields empty text with the default provenance of
    the branch taken: pdf_text for the pdf branch, ocr_text for the
    image branch; a failing layering invocation reports false and the
    pipeline keeps the prior result.  The acquisition functions return
    plain values for every world, so no exception can reach the
    caller. -/
theorem claim4_acquisition_failures_caught (w : World) (p a b e : String) :
    (w.readPdf p = .error e → extract_text_from_pdf w p = ("", "pdf_text")) ∧
    (w.imageOcr p = .error e → extract_text_from_image w p = ("", "ocr_text")) ∧
    (w.ocrPdf a b = .error e → run_ocrmypdf w a b = false) ∧
    (w.readPdf p = .error e →
      run_ocrmypdf w p (pyReplace p ".pdf" "_ocr.pdf") = false →
      (acquire_text w "pdf" p).1 = ("", "pdf_text")) ∧
    (w.imageOcr p = .error e → (acquire_text w "image" p).1 = ("", "ocr_text")) := by
  have h0 : pystrip "" = "" := rfl
  refine ⟨?_, ?_, ?_, ?_, ?_⟩
  · intro h
    simp [extract_text_from_pdf, extract_text_from_pdf_body, h, Except.map]
  · intro h
    simp [extract_text_from_image, extract_text_from_image_body, h, Except.map]
  · intro h
    simp [run_ocrmypdf, h]
  · intro h hocr
    have hpdf : extract_text_from_pdf w p = ("", "pdf_text") := by
      simp [extract_text_from_pdf, extract_text_from_pdf_body, h, Except.map]
    simp [acquire_text, pdf_acquire, hpdf, hocr, h0]
  · intro h
    simp [acquire_text, extract_text_from_image, extract_text_from_image_body, h, Except.map]

/-- Witness for claim C4: a world where every external call raises
    yields the empty-text defaults in both branches. -/
theorem claim4_acquisition_failures_caught_witness :
    wit4World.readPdf "doc.pdf" = .error "unreadable pdf" ∧
    extract_text_from_pdf wit4World "doc.pdf" = ("", "pdf_text") ∧
    extract_text_from_image wit4World "img.png" = ("", "ocr_text") ∧
    run_ocrmypdf wit4World "doc.pdf" "doc_ocr.pdf" = false ∧
    (acquire_text wit4World "pdf" "doc.pdf").1 = ("", "pdf_text") ∧
    (acquire_text wit4World "image" "img.png").1 = ("", "ocr_text") :=
  ⟨rfl,
   (claim4_acquisition_failures_caught wit4World "doc.pdf" "doc.pdf" "doc_ocr.pdf"
     "unreadable pdf").1 rfl,
   (claim4_acquisition_failures_caught wit4World "img.png" "doc.pdf" "doc_ocr.pdf"
     "image decode failed").2.1 rfl,
   (claim4_acquisition_failures_caught wit4World "doc.pdf" "doc.pdf" "doc_ocr.pdf"
     "invocation failed").2.2.1 rfl,
   (claim4_acquisition_failures_caught wit4World "doc.pdf" "doc.pdf" "doc_ocr.pdf"
     "unreadable pdf").2.2.2.1 rfl (by decide),
   (claim4_acquisition_failures_caught wit4World "img.png" "doc.pdf" "doc_ocr.pdf"
     "image decode failed").2.2.2.2 rfl⟩

/-- Claim C3 (amended): when the stripped native text of a pdf is empty
    or shorter than one hundred characters the pipeline invokes the
    layering tool exactly once; when the invocation succeeds it
    re-extracts from its output, forces provenance ocr_text, and then
    removes the output file, with a removal failure swallowed; when the
    invocation fails no removal is attempted and the native result is
    kept.  The result never depends on the outcome of the removal
    call. -/
theorem claim3_ocr_fallback (w : World) (dp : String → Option PyDate) (path : String)
    (hsparse : pystrip (extract_text_from_pdf w path).1 = "" ∨
      (pystrip (extract_text_from_pdf w path).1).length < 100) :
    ((process_extraction w dp "pdf" path).2.countP
      (fun ev => match ev with | Ev.ocrCall _ _ => true | _ => false) = 1) ∧
    (run_ocrmypdf w path (pyReplace path ".pdf" "_ocr.pdf") = true →
      (process_extraction w dp "pdf" path).2 =
        [Ev.ocrCall path (pyReplace path ".pdf" "_ocr.pdf"),
         Ev.removeCall (pyReplace path ".pdf" "_ocr.pdf")] ∧
      (acquire_text w "pdf" path).1 =
        ((extract_text_from_pdf w (pyReplace path ".pdf" "_ocr.pdf")).1, "ocr_text")) ∧
    (run_ocrmypdf w path (pyReplace path ".pdf" "_ocr.pdf") = false →
      (process_extraction w dp "pdf" path).2 =
        [Ev.ocrCall path (pyReplace path ".pdf" "_ocr.pdf")] ∧
      Ev.removeCall (pyReplace path ".pdf" "_ocr.pdf") ∉
        (process_extraction w dp "pdf" path).2 ∧
      (acquire_text w "pdf" path).1 = extract_text_from_pdf w path) ∧
    (∀ f, process_extraction { w with removeFile := f } dp "pdf" path =
      process_extraction w dp "pdf" path) := by
  have hcond : (pystrip (extract_text_from_pdf w path).1 = "" ∨
      (pystrip (extract_text_from_pdf w path).1).length < 100) = True := eq_true hsparse
  refine ⟨?_, ?_, ?_, ?_⟩
  · cases hocr : run_ocrmypdf w path (pyReplace path ".pdf" "_ocr.pdf") with
    | true =>
        simp [process_extraction, acquire_text, pdf_acquire, hcond, hocr]
    | false =>
        simp [process_extraction, acquire_text, pdf_acquire, hcond, hocr]
  · intro hocr
    constructor
    · simp [process_extraction, acquire_text, pdf_acquire, hcond, hocr]
    · simp [acquire_text, pdf_acquire, hcond, hocr]
  · intro hocr
    refine ⟨?_, ?_, ?_⟩
    · simp [process_extraction, acquire_text, pdf_acquire, hcond, hocr]
    · simp [process_extraction, acquire_text, pdf_acquire, hcond, hocr]
    · simp [acquire_text, pdf_acquire, hcond, hocr]
  · intro f
    rfl

/-- Counterexample to claim C3 as stated: in a world where the native
    text is sparse and the layering invocation fails, the fallback is
    triggered but the temporary output is never removed, so deletion is
    not unconditional on both success and failure of the fallback. -/
theorem claim3_counterexample :
    (pystrip (extract_text_from_pdf cex3World "doc.pdf").1 = "" ∨
      (pystrip (extract_text_from_pdf cex3World "doc.pdf").1).length < 100) ∧
    run_ocrmypdf cex3World "doc.pdf" "doc_ocr.pdf" = false ∧
    (process_extraction cex3World dateutil_parse "pdf" "doc.pdf").2 =
      [Ev.ocrCall "doc.pdf" "doc_ocr.pdf"] ∧
    Ev.removeCall "doc_ocr.pdf" ∉
      (process_extraction cex3World dateutil_parse "pdf" "doc.pdf").2 := by
  with_unfolding_all decide

/-- Witness for claim C3 (amended): a sparse pdf with a successful
    layering invocation produces the invocation and removal events in
    order and the re-extracted text under provenance ocr_text, even
    though the removal call itself fails in this world. -/
theorem claim3_ocr_fallback_witness :
    (pystrip (extract_text_from_pdf wit3World "doc.pdf").1 = "" ∨
      (pystrip (extract_text_from_pdf wit3World "doc.pdf").1).length < 100) ∧
    run_ocrmypdf wit3World "doc.pdf" "doc_ocr.pdf" = true ∧
    wit3World.removeFile "doc_ocr.pdf" = .error "permission denied" ∧
    (process_extraction wit3World dateutil_parse "pdf" "doc.pdf").2 =
      [Ev.ocrCall "doc.pdf" "doc_ocr.pdf", Ev.removeCall "doc_ocr.pdf"] ∧
    (acquire_text wit3World "pdf" "doc.pdf").1 = ("RECOVERED TEXT", "ocr_text") := by
  have hrep : pyReplace "doc.pdf" ".pdf" "_ocr.pdf" = "doc_ocr.pdf" := by decide
  have h := claim3_ocr_fallback wit3World dateutil_parse "doc.pdf"
    (Or.inr (by decide))
  rw [hrep] at h
  have h2 := h.2.1 (by decide)
  refine ⟨Or.inr (by decide), by decide, rfl, h2.1, ?_⟩
  have h3 := h2.2
  have hre : extract_text_from_pdf wit3World "doc_ocr.pdf" = ("RECOVERED TEXT", "pdf_text") := by
    decide
  rw [hre] at h3
  exact h3

/-- Claim C8: the score of an OCR pass is the digit count plus fifty
    per keyword hit plus the floored two-hundredth of the length, and
    the enhanced pass is selected exactly when its score is strictly
    greater, the base pass on a tie. -/
theorem claim8_ocr_pass_selection (w : World) (p base enhanced : String)
    (h : w.imageOcr p = .ok (base, enhanced)) :
    (score_text base = base.toList.countP Char.isDigit +
      50 * (["LOAN", "PAYMENT", "BORROWER", "PRINCIPAL", "INTEREST", "RATE", "MATURITY",
        "ESCROW"].countP (fun kw => containsSub kw.toList (pyUpper base).toList)) +
      base.length / 200) ∧
    (score_text base < score_text enhanced →
      extract_text_from_image w p = (enhanced, "ocr_text")) ∧
    (score_text enhanced ≤ score_text base →
      extract_text_from_image w p = (base, "ocr_text")) := by
  refine ⟨rfl, ?_, ?_⟩
  · intro hlt
    simp [extract_text_from_image, extract_text_from_image_body, h, Except.map, hlt]
  · intro hle
    simp [extract_text_from_image, extract_text_from_image_body, h, Except.map,
      Nat.not_lt.mpr hle]

/-- Witness for claim C8: with a base pass of two digits and an
    enhanced pass containing a keyword, the enhanced pass scores
    strictly higher and is selected. -/
theorem claim8_ocr_pass_selection_witness :
    wit8World.imageOcr "img.png" = .ok ("a1b2", "LOAN 123") ∧
    score_text "a1b2" < score_text "LOAN 123" ∧
    extract_text_from_image wit8World "img.png" = ("LOAN 123", "ocr_text") :=
  ⟨rfl, by decide,
   (claim8_ocr_pass_selection wit8World "img.png" "a1b2" "LOAN 123" rfl).2.1 (by decide)⟩

/-- Claim C9: for both date fields, once the label pattern captures a
    date string the field is never left unmatched: the ISO rendering at
    confidence 0.9 when the external parser succeeds on the capture,
    and the capture kept verbatim at confidence 0.5 when it fails. -/
theorem claim9_date_capture_never_dropped (dp : String → Option PyDate) (text prov : String) :
    (∀ st en cap c2, reSearch patDue text.toList = some (st, en, some cap, c2) →
      extract_next_due_date dp text prov =
        some (match dp (String.mk cap) with
          | some d => ⟨isoStr d, 0.9, prov⟩
          | none => ⟨String.mk cap, 0.5, prov⟩)) ∧
    (∀ st en cap c2, reSearch patMaturity text.toList = some (st, en, some cap, c2) →
      extract_maturity_date dp text prov =
        some (match dp (String.mk cap) with
          | some d => ⟨isoStr d, 0.9, prov⟩
          | none => ⟨String.mk cap, 0.5, prov⟩)) := by
  constructor
  · intro st en cap c2 hsearch
    simp only [extract_next_due_date, hsearch]
    cases dp (String.mk cap) <;> rfl
  · intro st en cap c2 hsearch
    simp only [extract_maturity_date, hsearch]
    cases dp (String.mk cap) <;> rfl

/-- Witness for claim C9: a parseable captured date yields the ISO
    value at confidence 0.9 and an unparseable one is kept verbatim at
    confidence 0.5. -/
theorem claim9_date_capture_never_dropped_witness :
    reSearch patMaturity ("Maturity Date: 01/15/2045").toList =
      some (0, 25, some ("01/15/2045").toList, none) ∧
    extract_maturity_date dateutil_parse "Maturity Date: 01/15/2045" "pdf_text" =
      some ⟨"2045-01-15", 0.9, "pdf_text"⟩ ∧
    extract_maturity_date dateutil_parse "Maturity Date: 99/99/9999" "pdf_text" =
      some ⟨"99/99/9999", 0.5, "pdf_text"⟩ := by
  refine ⟨by decide, ?_, ?_⟩
  · have h := (claim9_date_capture_never_dropped dateutil_parse
      "Maturity Date: 01/15/2045" "pdf_text").2 0 25 ("01/15/2045").toList none (by decide)
    rw [h]
    with_unfolding_all decide
  · have h := (claim9_date_capture_never_dropped dateutil_parse
      "Maturity Date: 99/99/9999" "pdf_text").2 0 25 ("99/99/9999").toList none (by decide)
    rw [h]
    with_unfolding_all decide

/-- Claim C5: the scheduled payment validator accepts a captured token
    only when it contains a dollar sign, comma or dot, and its stripped
    form parses to an amount between 100 and 100000 inclusive; on
    acceptance the emitted value is the amount with two decimals;
    conversely every such token is accepted.  The concrete cases of the
    claim are included: 50 and 150000 dollars are rejected and a
    labelled 1,234.56 dollars yields 1234.56 at tier one. -/
theorem claim5_scheduled_pi_validation :
    (∀ t : String, pi_validate_token t ≠ none →
      (t.toList.contains '$' ∨ t.toList.contains ',' ∨ t.toList.contains '.')) ∧
    (∀ t v, pi_validate_token t = some v →
      ∃ a : ℚ, pyFloat (stripDollarCommas t.toList) = some a ∧ 100 ≤ a ∧ a ≤ 100000 ∧
        v = format2 a) ∧
    (∀ (t : String) (a : ℚ),
      (t.toList.contains '$' ∨ t.toList.contains ',' ∨ t.toList.contains '.') →
      pyFloat (stripDollarCommas t.toList) = some a → 100 ≤ a → a ≤ 100000 →
      pi_validate_token t = some (format2 a)) ∧
    pi_validate_token "$50.00" = none ∧
    pi_validate_token "$150000.00" = none ∧
    extract_scheduled_pi "Principal and Interest: $1,234.56" "pdf_text" =
      some ⟨"1234.56", 0.90, "pdf_text"⟩ := by
  refine ⟨?_, ?_, ?_, ?_, ?_, ?_⟩
  · intro t h
    simp only [pi_validate_token] at h
    cases hA : t.toList.contains '$' <;> cases hB : t.toList.contains ',' <;>
      cases hC : t.toList.contains '.' <;> simp_all
  · intro t v h
    obtain ⟨a, ha, hb, hfmt⟩ := pi_validate_token_some t v h
    rw [not_or] at hb
    exact ⟨a, ha, not_lt.mp hb.1, not_lt.mp hb.2, hfmt⟩
  · intro t a hm hpf h100 h100k
    simp only [pi_validate_token]
    have hor : (t.toList.contains '$' || t.toList.contains ',' || t.toList.contains '.') =
        true := by
      rcases hm with h | h | h <;> simp only [h, Bool.true_or, Bool.or_true]
    rw [hor]
    simp only [Bool.not_true, Bool.false_eq_true, if_false]
    rw [hpf]
    show (if a < 100 ∨ a > 100000 then none else some (format2 a)) = some (format2 a)
    rw [if_neg]
    push_neg
    exact ⟨h100, h100k⟩
  · with_unfolding_all decide
  · with_unfolding_all decide
  · with_unfolding_all decide

/-- Witness for claim C5 at the accepted token of the claim: the
    validator accepts it, so it carries a currency marker and parses
    within bounds to the two-decimal rendering. -/
theorem claim5_scheduled_pi_validation_witness :
    pi_validate_token "$1,234.56" = some "1234.56" ∧
    (("$1,234.56").toList.contains '$' ∨ ("$1,234.56").toList.contains ',' ∨
      ("$1,234.56").toList.contains '.') ∧
    (∃ a : ℚ, pyFloat (stripDollarCommas ("$1,234.56").toList) = some a ∧
      100 ≤ a ∧ a ≤ 100000 ∧ "1234.56" = format2 a) :=
  ⟨by with_unfolding_all decide,
   claim5_scheduled_pi_validation.1 "$1,234.56" (by with_unfolding_all decide),
   claim5_scheduled_pi_validation.2.1 "$1,234.56" "1234.56" (by with_unfolding_all decide)⟩

/-- Claim C7: when the primary note-rate search fails and the table
    phrase occurs, the secondary scan works on the five hundred
    characters after the phrase, keeps only glyph-corrected tokens whose
    rate lies in the sanity bounds, and returns at confidence 0.70 the
    most frequent valid value, ties broken by earliest first
    occurrence. -/
theorem claim7_secondary_note_rate_scan (text prov : String)
    (hprimary : note_rate_primary text prov = none)
    (st en : Nat) (cps : Caps)
    (hsearch : reSearch patTable text.toList = some (st, en, cps))
    (hne : validRatesOf ((text.toList.drop en).take 500) ≠ []) :
    ∃ v, extract_note_rate text prov = some ⟨v, 0.70, prov⟩ ∧
      v ∈ validRatesOf ((text.toList.drop en).take 500) ∧
      (∀ u ∈ validRatesOf ((text.toList.drop en).take 500),
        countOf u (validRatesOf ((text.toList.drop en).take 500)) ≤
          countOf v (validRatesOf ((text.toList.drop en).take 500))) ∧
      (∃ pre post, validRatesOf ((text.toList.drop en).take 500) = pre ++ v :: post ∧
        ∀ u ∈ pre, countOf u (validRatesOf ((text.toList.drop en).take 500)) <
          countOf v (validRatesOf ((text.toList.drop en).take 500))) ∧
      (∃ r : ℚ, pyFloat v.toList = some r ∧ r > 0 ∧ r ≤ 25) := by
  obtain ⟨w, rest, hval⟩ : ∃ w rest, validRatesOf ((text.toList.drop en).take 500) = w :: rest := by
    cases hv : validRatesOf ((text.toList.drop en).take 500) with
    | nil => exact absurd hv hne
    | cons w rest => exact ⟨w, rest, rfl⟩
  have hmc : mostCommon1 (validRatesOf ((text.toList.drop en).take 500)) =
      some (pickBest (fun u => countOf u (w :: rest)) w rest) := by
    rw [hval]
    rfl
  set v := pickBest (fun u => countOf u (w :: rest)) w rest with hv
  obtain ⟨hmem, hmax, pre, post, hsplit, hpre⟩ :=
    mostCommon1_spec (validRatesOf ((text.toList.drop en).take 500)) v hmc
  refine ⟨v, ?_, hmem, hmax, ⟨pre, post, hsplit, hpre⟩, (validRatesOf_mem _ _ hmem).1⟩
  simp only [extract_note_rate, hprimary, note_rate_secondary, hsearch]
  rw [hmc]

/-- Witness for claim C7 on a concrete table snippet with a repeated
    rate: the most frequent valid value wins at confidence 0.70. -/
theorem claim7_secondary_note_rate_scan_witness :
    note_rate_primary "Interest Rates 3.1250% 4.5000% 3.1250%" "pdf_text" = none ∧
    reSearch patTable ("Interest Rates 3.1250% 4.5000% 3.1250%").toList =
      some (0, 14, none, none) ∧
    validRatesOf ((("Interest Rates 3.1250% 4.5000% 3.1250%").toList.drop 14).take 500) =
      ["3.1250", "4.5000", "3.1250"] ∧
    extract_note_rate "Interest Rates 3.1250% 4.5000% 3.1250%" "pdf_text" =
      some ⟨"3.1250", 0.70, "pdf_text"⟩ ∧
    (∃ v, extract_note_rate "Interest Rates 3.1250% 4.5000% 3.1250%" "pdf_text" =
        some ⟨v, 0.70, "pdf_text"⟩ ∧
      v ∈ validRatesOf ((("Interest Rates 3.1250% 4.5000% 3.1250%").toList.drop 14).take 500) ∧
      (∀ u ∈ validRatesOf ((("Interest Rates 3.1250% 4.5000% 3.1250%").toList.drop 14).take 500),
        countOf u (validRatesOf
            ((("Interest Rates 3.1250% 4.5000% 3.1250%").toList.drop 14).take 500)) ≤
          countOf v (validRatesOf
            ((("Interest Rates 3.1250% 4.5000% 3.1250%").toList.drop 14).take 500))) ∧
      (∃ pre post, validRatesOf
          ((("Interest Rates 3.1250% 4.5000% 3.1250%").toList.drop 14).take 500) =
            pre ++ v :: post ∧
        ∀ u ∈ pre, countOf u (validRatesOf
            ((("Interest Rates 3.1250% 4.5000% 3.1250%").toList.drop 14).take 500)) <
          countOf v (validRatesOf
            ((("Interest Rates 3.1250% 4.5000% 3.1250%").toList.drop 14).take 500))) ∧
      (∃ r : ℚ, pyFloat v.toList = some r ∧ r > 0 ∧ r ≤ 25)) := by
  refine ⟨by with_unfolding_all decide, by decide, by with_unfolding_all decide,
    by with_unfolding_all decide, ?_⟩
  exact claim7_secondary_note_rate_scan "Interest Rates 3.1250% 4.5000% 3.1250%" "pdf_text"
    (by with_unfolding_all decide) 0 14 (none, none) (by decide)
    (by with_unfolding_all decide)

/-! Computation of the two normalisation patterns. -/

theorem pctDollar (u : List Char) (cp : Caps) :
    mres (RE.seq (chOf '%') (RE.seq RE.dollar RE.eps)) u cp =
      if u = ['%'] then [(([] : List Char), cp)]
      else if u = ['%', '\n'] then [(['\n'], cp)] else [] := by
  match u with
  | [] => rfl
  | c :: t =>
      by_cases hc : c = '%'
      · subst hc
        by_cases h0 : t = []
        · subst h0; rfl
        · by_cases h1 : t = ['\n']
          · subst h1; rfl
          · simp [mres, chOf, List.isEmpty_iff, h0, h1]
      · simp [mres, chOf, hc]

theorem take_lengthTakeWhile (p : Char → Bool) (l : List Char) :
    l.take ((l.takeWhile p).length) = l.takeWhile p := take_clsRun p l

theorem lengthTakeWhile_le (p : Char → Bool) (l : List Char) :
    (l.takeWhile p).length ≤ l.length := clsRun_le p l

theorem head_of_lt_lengthTakeWhile (p : Char → Bool) (l : List Char) (i : Nat)
    (h : i < (l.takeWhile p).length) : ∃ c t, l.drop i = c :: t ∧ p c = true :=
  mem_of_lt_clsRun p l i h

/-- Computation of the tail of both normalisation patterns beyond the
    dot: the captured digit run must have length three or four and be
    followed by a percent sign that ends the token or is followed by one
    final newline. -/
theorem grpTailGen (i : Nat) (rest : List Char) (cp : Caps) :
    mres (RE.seq (RE.grp i (RE.repCls Char.isDigit 3 4))
        (RE.seq (chOf '%') (RE.seq RE.dollar RE.eps))) rest cp =
      (if norm1Tail rest then
        [(if rest.drop ((rest.takeWhile Char.isDigit).length) = ['%'] then ([] : List Char)
            else ['\n'],
          setCap i (rest.takeWhile Char.isDigit) cp)]
       else []) := by
  have hseq : ∀ (a b : RE) (s : List Char) (c : Caps),
      mres (RE.seq a b) s c = (mres a s c).flatMap (fun r => mres b r.1 r.2) :=
    fun _ _ _ _ => rfl
  have hgrp : ∀ (j : Nat) (a : RE) (s : List Char) (c : Caps),
      mres (RE.grp j a) s c =
        (mres a s c).map (fun r => (r.1, setCap j (s.take (s.length - r.1.length)) r.2)) :=
    fun _ _ _ _ => rfl
  have hrep : ∀ (p : Char → Bool) (lo hi : Nat) (s : List Char) (c : Caps),
      mres (RE.repCls p lo hi) s c = (repCands lo hi (clsRun p s)).map (fun k => (s.drop k, c)) :=
    fun _ _ _ _ _ => rfl
  have hlen := lengthTakeWhile_le Char.isDigit rest
  rw [hseq, hgrp, hrep]
  simp only [clsRun, norm1Tail]
  obtain ⟨n, hn⟩ : ∃ n, (rest.takeWhile Char.isDigit).length = n := ⟨_, rfl⟩
  rw [hn] at hlen
  simp only [hn]
  by_cases hlt : n < 3
  · have hc : repCands 3 4 n = [] := by
      simp only [repCands]
      rw [if_pos (by omega)]
    have h3 : n ≠ 3 := by omega
    have h4 : n ≠ 4 := by omega
    simp [hc, h3, h4]
  · by_cases he3 : n = 3
    · subst he3
      rw [show repCands 3 4 3 = [3] from by decide]
      simp only [List.map_cons, List.map_nil, List.flatMap_cons, List.flatMap_nil,
        List.append_nil]
      rw [pctDollar]
      have hdl : (rest.drop 3).length = rest.length - 3 := List.length_drop 3 rest
      have htk : rest.take (rest.length - (rest.drop 3).length) = rest.takeWhile Char.isDigit := by
        rw [hdl]
        have h3 : rest.length - (rest.length - 3) = 3 := by omega
        rw [h3, ← hn, take_lengthTakeWhile]
      rw [htk]
      by_cases hd1 : rest.drop 3 = ['%']
      · simp [hd1]
      · by_cases hd2 : rest.drop 3 = ['%', '\n']
        · simp [hd1, hd2]
        · simp [hd1, hd2]
    · by_cases he4 : n = 4
      · subst he4
        rw [show repCands 3 4 4 = [4, 3] from by decide]
        obtain ⟨c, t, hct, hcdig⟩ : ∃ c t, rest.drop 3 = c :: t ∧ Char.isDigit c = true :=
          head_of_lt_lengthTakeWhile Char.isDigit rest 3 (by omega)
        have hcne : c ≠ '%' := by
          intro h
          rw [h] at hcdig
          simp [Char.isDigit] at hcdig
        simp only [List.map_cons, List.map_nil, List.flatMap_cons, List.flatMap_nil,
          List.append_nil]
        rw [pctDollar, pctDollar]
        have hz1 : ¬(rest.drop 3 = ['%']) := by simp [hct, hcne]
        have hz2 : ¬(rest.drop 3 = ['%', '\n']) := by simp [hct, hcne]
        rw [if_neg hz1, if_neg hz2]
        have hdl : (rest.drop 4).length = rest.length - 4 := List.length_drop 4 rest
        have htk : rest.take (rest.length - (rest.drop 4).length) =
            rest.takeWhile Char.isDigit := by
          rw [hdl]
          have h4 : rest.length - (rest.length - 4) = 4 := by omega
          rw [h4, ← hn, take_lengthTakeWhile]
        rw [htk]
        by_cases hd1 : rest.drop 4 = ['%']
        · simp [hd1]
        · by_cases hd2 : rest.drop 4 = ['%', '\n']
          · simp [hd1, hd2]
          · simp [hd1, hd2]
      · have h5 : 5 ≤ n := by omega
        have hc : repCands 3 4 n = [4, 3] := by
          simp only [repCands]
          rw [if_neg (by omega)]
          have hmin : min 4 n = 4 := by omega
          rw [hmin]
          decide
        obtain ⟨c3, t3, hct3, hdig3⟩ : ∃ c t, rest.drop 3 = c :: t ∧ Char.isDigit c = true :=
          head_of_lt_lengthTakeWhile Char.isDigit rest 3 (by omega)
        obtain ⟨c4, t4, hct4, hdig4⟩ : ∃ c t, rest.drop 4 = c :: t ∧ Char.isDigit c = true :=
          head_of_lt_lengthTakeWhile Char.isDigit rest 4 (by omega)
        have hcne3 : c3 ≠ '%' := by
          intro h
          rw [h] at hdig3
          simp [Char.isDigit] at hdig3
        have hcne4 : c4 ≠ '%' := by
          intro h
          rw [h] at hdig4
          simp [Char.isDigit] at hdig4
        have hz1 : ¬(rest.drop 3 = ['%']) := by simp [hct3, hcne3]
        have hz2 : ¬(rest.drop 3 = ['%', '\n']) := by simp [hct3, hcne3]
        have hz3 : ¬(rest.drop 4 = ['%']) := by simp [hct4, hcne4]
        have hz4 : ¬(rest.drop 4 = ['%', '\n']) := by simp [hct4, hcne4]
        have hne3 : n ≠ 3 := he3
        have hne4 : n ≠ 4 := he4
        rw [hc]
        simp only [List.map_cons, List.map_nil, List.flatMap_cons, List.flatMap_nil,
          List.append_nil]
        rw [pctDollar, pctDollar]
        rw [if_neg hz1, if_neg hz2, if_neg hz3, if_neg hz4]
        simp [hne3, hne4]


theorem grpDigit (x : Char) (u : List Char) (cp : Caps) :
    mres (RE.grp 1 (RE.cls Char.isDigit)) (x :: u) cp =
      if Char.isDigit x then [(u, setCap 1 [x] cp)] else [] := by
  by_cases h : Char.isDigit x
  · have hlen : (x :: u).length - u.length = 1 := by simp
    simp [mres, h, hlen]
  · simp [mres, h]

/-- Full computation of the first normalisation pattern under re.match:
    it matches exactly the tokens made of a glyph, a dot and a valid
    tail, capturing the digit run. -/
theorem reMatch_norm1 (l : List Char) :
    reMatch patNorm1 l =
      (match l with
       | g :: '.' :: rest =>
           if glyphChar g && norm1Tail rest then some (some (rest.takeWhile Char.isDigit), none)
           else none
       | _ => none) := by
  have hpat : patNorm1 = RE.seq (RE.cls glyphChar) (RE.seq (chOf '.')
      (RE.seq (RE.grp 1 (RE.repCls Char.isDigit 3 4))
        (RE.seq (chOf '%') (RE.seq RE.dollar RE.eps)))) := rfl
  cases l with
  | nil => rfl
  | cons g l1 =>
      cases l1 with
      | nil =>
          cases hg : glyphChar g <;>
            simp [reMatch, hpat, mres, hg]
      | cons c2 l2 =>
          by_cases hc2 : c2 = '.'
          · subst hc2
            cases hg : glyphChar g with
            | false => simp [reMatch, hpat, mres, hg]
            | true =>
                have e1 : mres patNorm1 (g :: '.' :: l2) (none, none) =
                    (if norm1Tail l2 then
                      [(if l2.drop ((l2.takeWhile Char.isDigit).length) = ['%'] then
                          ([] : List Char) else ['\n'],
                        setCap 1 (l2.takeWhile Char.isDigit) (none, none))] else []) := by
                  have s1 : mres patNorm1 (g :: '.' :: l2) (none, none) =
                      (mres (RE.cls glyphChar) (g :: '.' :: l2) (none, none)).flatMap
                        (fun r => mres (RE.seq (chOf '.')
                          (RE.seq (RE.grp 1 (RE.repCls Char.isDigit 3 4))
                            (RE.seq (chOf '%') (RE.seq RE.dollar RE.eps)))) r.1 r.2) := rfl
                  rw [s1, show mres (RE.cls glyphChar) (g :: '.' :: l2) (none, none) =
                      [('.' :: l2, ((none : Option (List Char)),
                        (none : Option (List Char))))] from by simp [mres, hg]]
                  simp only [List.flatMap_cons, List.flatMap_nil, List.append_nil]
                  have s2 : mres (RE.seq (chOf '.')
                      (RE.seq (RE.grp 1 (RE.repCls Char.isDigit 3 4))
                        (RE.seq (chOf '%') (RE.seq RE.dollar RE.eps)))) ('.' :: l2)
                        (none, none) =
                      (mres (chOf '.') ('.' :: l2) (none, none)).flatMap
                        (fun r => mres (RE.seq (RE.grp 1 (RE.repCls Char.isDigit 3 4))
                          (RE.seq (chOf '%') (RE.seq RE.dollar RE.eps))) r.1 r.2) := rfl
                  rw [s2, show mres (chOf '.') ('.' :: l2) (none, none) =
                      [(l2, ((none : Option (List Char)),
                        (none : Option (List Char))))] from by simp [chOf, mres]]
                  simp only [List.flatMap_cons, List.flatMap_nil, List.append_nil]
                  exact grpTailGen 1 l2 (none, none)
                simp only [reMatch, e1]
                by_cases ht : norm1Tail l2
                · simp [ht, hg, setCap]
                · simp [ht, hg]
          · cases hg : glyphChar g <;>
              simp [reMatch, hpat, mres, hg, chOf, hc2]

/-- Full computation of the second normalisation pattern under
    re.match: it matches exactly the tokens made of a glyph, one digit,
    a dot and a valid tail, capturing the digit and the run. -/
theorem reMatch_norm2 (l : List Char) :
    reMatch patNorm2 l =
      (match l with
       | g :: d :: '.' :: rest =>
           if glyphChar g && Char.isDigit d && norm1Tail rest then
             some (some [d], some (rest.takeWhile Char.isDigit))
           else none
       | _ => none) := by
  have hpat : patNorm2 = RE.seq (RE.cls glyphChar) (RE.seq (RE.grp 1 (RE.cls Char.isDigit))
      (RE.seq (chOf '.') (RE.seq (RE.grp 2 (RE.repCls Char.isDigit 3 4))
        (RE.seq (chOf '%') (RE.seq RE.dollar RE.eps))))) := rfl
  cases l with
  | nil => rfl
  | cons g l1 =>
      cases l1 with
      | nil =>
          cases hg : glyphChar g <;> simp [reMatch, hpat, mres, hg]
      | cons d l2 =>
          cases l2 with
          | nil =>
              cases hg : glyphChar g <;> cases hd : Char.isDigit d <;>
                simp [reMatch, hpat, mres, hg, hd]
          | cons c3 l3 =>
              by_cases hc3 : c3 = '.'
              · subst hc3
                cases hg : glyphChar g with
                | false => simp [reMatch, hpat, mres, hg]
                | true =>
                    cases hd : Char.isDigit d with
                    | false => simp [reMatch, hpat, mres, hg, hd]
                    | true =>
                        have e1 : mres patNorm2 (g :: d :: '.' :: l3) (none, none) =
                            (if norm1Tail l3 then
                              [(if l3.drop ((l3.takeWhile Char.isDigit).length) = ['%'] then
                                  ([] : List Char) else ['\n'],
                                (some [d], some (l3.takeWhile Char.isDigit)))] else []) := by
                          have s1 : mres patNorm2 (g :: d :: '.' :: l3) (none, none) =
                              (mres (RE.cls glyphChar) (g :: d :: '.' :: l3)
                                (none, none)).flatMap
                                (fun r => mres (RE.seq (RE.grp 1 (RE.cls Char.isDigit))
                                  (RE.seq (chOf '.')
                                    (RE.seq (RE.grp 2 (RE.repCls Char.isDigit 3 4))
                                      (RE.seq (chOf '%') (RE.seq RE.dollar RE.eps)))))
                                  r.1 r.2) := rfl
                          rw [s1, show mres (RE.cls glyphChar) (g :: d :: '.' :: l3)
                              (none, none) =
                              [(d :: '.' :: l3, ((none : Option (List Char)),
                                (none : Option (List Char))))] from by simp [mres, hg]]
                          simp only [List.flatMap_cons, List.flatMap_nil, List.append_nil]
                          have s2 : mres (RE.seq (RE.grp 1 (RE.cls Char.isDigit))
                              (RE.seq (chOf '.')
                                (RE.seq (RE.grp 2 (RE.repCls Char.isDigit 3 4))
                                  (RE.seq (chOf '%') (RE.seq RE.dollar RE.eps)))))
                              (d :: '.' :: l3) (none, none) =
                              (mres (RE.grp 1 (RE.cls Char.isDigit)) (d :: '.' :: l3)
                                (none, none)).flatMap
                                (fun r => mres (RE.seq (chOf '.')
                                  (RE.seq (RE.grp 2 (RE.repCls Char.isDigit 3 4))
                                    (RE.seq (chOf '%') (RE.seq RE.dollar RE.eps))))
                                  r.1 r.2) := rfl
                          rw [s2, grpDigit]
                          rw [if_pos hd]
                          simp only [List.flatMap_cons, List.flatMap_nil, List.append_nil]
                          have s3 : mres (RE.seq (chOf '.')
                              (RE.seq (RE.grp 2 (RE.repCls Char.isDigit 3 4))
                                (RE.seq (chOf '%') (RE.seq RE.dollar RE.eps))))
                              ('.' :: l3) (setCap 1 [d] (none, none)) =
                              (mres (chOf '.') ('.' :: l3)
                                (setCap 1 [d] (none, none))).flatMap
                                (fun r => mres (RE.seq (RE.grp 2 (RE.repCls Char.isDigit 3 4))
                                  (RE.seq (chOf '%') (RE.seq RE.dollar RE.eps))) r.1 r.2) := rfl
                          rw [s3, show mres (chOf '.') ('.' :: l3)
                              (setCap 1 [d] (none, none)) =
                              [(l3, setCap 1 [d] (none, none))] from by simp [chOf, mres]]
                          simp only [List.flatMap_cons, List.flatMap_nil, List.append_nil]
                          rw [grpTailGen]
                          rfl
                        simp only [reMatch, e1]
                        by_cases ht : norm1Tail l3
                        · simp [ht, hg, hd]
                        · simp [ht, hg, hd]
              · cases hg : glyphChar g <;> cases hd : Char.isDigit d <;>
                  simp [reMatch, hpat, mres, hg, hd, chOf, hc3]

/-- The glyph normalisation of the source agrees with its plain-shape
    description on every token. -/
theorem normTok_eq_spec (l : List Char) : normTok l = normTokSpec l := by
  cases l with
  | nil => rfl
  | cons g l1 =>
      cases l1 with
      | nil =>
          simp only [normTok, reMatch_norm1, reMatch_norm2]
          rfl
      | cons c2 l2 =>
          by_cases hc2 : c2 = '.'
          · subst hc2
            simp only [normTok, reMatch_norm1, reMatch_norm2]
            cases hcond : (glyphChar g && norm1Tail l2) with
            | true =>
                simp [hcond, normTokSpec]
            | false =>
                cases l2 with
                | nil => simp [hcond, normTokSpec]
                | cons c3 l3 =>
                    by_cases hc3 : c3 = '.'
                    · subst hc3
                      simp [hcond, normTokSpec, Char.isDigit]
                    · simp [hcond, normTokSpec, hc3]
          · simp only [normTok, reMatch_norm1, reMatch_norm2]
            cases l2 with
            | nil => simp [normTokSpec, hc2]
            | cons c3 l3 =>
                by_cases hc3 : c3 = '.'
                · subst hc3
                  cases hcond : (glyphChar g && Char.isDigit c2 && norm1Tail l3) with
                  | true => simp [hcond, normTokSpec, hc2]
                  | false => simp [hcond, normTokSpec, hc2]
                · simp [normTokSpec, hc2, hc3]

theorem takeWhile_all_append (p : Char → Bool) (ds : List Char) (c0 : Char) (t : List Char)
    (h : ∀ c ∈ ds, p c = true) (hc : p c0 = false) :
    (ds ++ c0 :: t).takeWhile p = ds := by
  induction ds with
  | nil => simp [List.takeWhile, hc]
  | cons d ds ih =>
      have hd : p d = true := h d (by simp)
      simp only [List.cons_append, List.takeWhile, hd, List.append_eq]
      rw [ih (fun c hcmem => h c (by simp [hcmem]))]

/-- Claim C10 (amended): normalize_rate_token rewrites a token exactly
    when it has the shape of a section sign or capital S, an optional
    single digit, a dot, exactly three or four digits and a percent sign
    ending the token or followed by one final newline, which Python
    matches because its end anchor also accepts a final newline; the
    rewrite drops that newline.  Every other token, including misread
    rates with one or two fractional digits and tokens with two or more
    leading digits after the glyph, is returned unchanged. -/
theorem claim10_normalize_shape (s : String) :
    normalize_rate_token s = String.mk (normTokSpec s.toList) :=
  congrArg String.mk (normTok_eq_spec s.toList)

/-- Counterexample to claim C10 as stated: the token with a trailing
    newline is not of the stated shape, whose tokens end in the percent
    sign, yet it is rewritten rather than returned unchanged. -/
theorem claim10_normalize_shape_counterexample :
    normalize_rate_token "§.5600%\n" ≠ "§.5600%\n" ∧
    normalize_rate_token "§.5600%\n" = "5.5600%" := by
  constructor
  · decide
  · decide

/-- Claim C6: the glyph normalisation turns a leading section sign or
    capital S before the dot into the digit five, and before another
    digit prepends a five, whenever the fractional part has three or
    four digits; in particular on the three tokens of the claim. -/
theorem claim6_glyph_correction :
    (∀ (g : Char) (ds : List Char), (g = '§' ∨ g = 'S') →
      (∀ c ∈ ds, Char.isDigit c = true) → (ds.length = 3 ∨ ds.length = 4) →
      normalize_rate_token (String.mk (g :: '.' :: ds ++ ['%'])) =
        String.mk ('5' :: '.' :: ds ++ ['%'])) ∧
    (∀ (g d : Char) (ds : List Char), (g = '§' ∨ g = 'S') → Char.isDigit d = true →
      (∀ c ∈ ds, Char.isDigit c = true) → (ds.length = 3 ∨ ds.length = 4) →
      normalize_rate_token (String.mk (g :: d :: '.' :: ds ++ ['%'])) =
        String.mk ('5' :: d :: '.' :: ds ++ ['%'])) ∧
    normalize_rate_token "§.5600%" = "5.5600%" ∧
    normalize_rate_token "S.7500%" = "5.7500%" ∧
    normalize_rate_token "§5.1200%" = "55.1200%" := by
  have hpct : Char.isDigit '%' = false := by decide
  refine ⟨?_, ?_, by decide, by decide, by decide⟩
  · intro g ds hg hds hlen
    have hglyph : glyphChar g = true := by
      rcases hg with rfl | rfl <;> decide
    have htw : (ds ++ ['%']).takeWhile Char.isDigit = ds :=
      takeWhile_all_append Char.isDigit ds '%' [] hds hpct
    have htail : norm1Tail (ds ++ ['%']) = true := by
      simp only [norm1Tail, htw, List.drop_left]
      rcases hlen with h | h <;> simp [h]
    show String.mk (normTok (g :: '.' :: ds ++ ['%'])) = String.mk ('5' :: '.' :: ds ++ ['%'])
    rw [normTok_eq_spec]
    simp [normTokSpec, hglyph, htail, htw]
  · intro g d ds hg hd hds hlen
    have hglyph : glyphChar g = true := by
      rcases hg with rfl | rfl <;> decide
    have hdne : d ≠ '.' := by
      intro h
      rw [h] at hd
      simp [Char.isDigit] at hd
    have htw : (ds ++ ['%']).takeWhile Char.isDigit = ds :=
      takeWhile_all_append Char.isDigit ds '%' [] hds hpct
    have htail : norm1Tail (ds ++ ['%']) = true := by
      simp only [norm1Tail, htw, List.drop_left]
      rcases hlen with h | h <;> simp [h]
    show String.mk (normTok (g :: d :: '.' :: ds ++ ['%'])) =
      String.mk ('5' :: d :: '.' :: ds ++ ['%'])
    rw [normTok_eq_spec]
    simp [normTokSpec, hglyph, hd, htail, htw, hdne]

/-- Witness for claim C6 applying both glyph rules at concrete
    digits. -/
theorem claim6_glyph_correction_witness :
    ('§' = '§' ∨ '§' = 'S') ∧ (∀ c ∈ ("1200").toList, Char.isDigit c = true) ∧
    (("1200").toList.length = 3 ∨ ("1200").toList.length = 4) ∧
    normalize_rate_token (String.mk ('§' :: '5' :: '.' :: ("1200").toList ++ ['%'])) =
      String.mk ('5' :: '5' :: '.' :: ("1200").toList ++ ['%']) ∧
    normalize_rate_token (String.mk ('S' :: '.' :: ("7500").toList ++ ['%'])) =
      String.mk ('5' :: '.' :: ("7500").toList ++ ['%']) :=
  ⟨Or.inl rfl, by decide, Or.inr (by decide),
   claim6_glyph_correction.2.1 '§' '5' ("1200").toList (Or.inl rfl) (by decide) (by decide)
     (Or.inr (by decide)),
   claim6_glyph_correction.1 'S' ("7500").toList (Or.inr rfl) (by decide)
     (Or.inr (by decide))⟩

end Loan
